import Mathlib

/-!
Build-context resolution of `providence-cli`.

A shallow embedding of the build-context code of `providence-cli`
(`builder/context.go`, `builder/provignore/provignore.go`,
`cli/command/engine/build.go`, `cli/command/cli.go`, `client/client.go`,
`main.go`) together with the properties of that code that its specification
states.

Conventions of the embedding.

* A Go `string` or `[]byte` holding text is a `List Char` (`Str`): the list of
  the code points of a valid UTF-8 text.  Every byte-oriented operation the
  code applies to text (`HasPrefix`, `TrimPrefix`, the path functions, the line
  scanner) looks for ASCII bytes or for the full encoding of one code point,
  so it acts the same on code points.  Lengths that Go measures in bytes are
  measured with `byteLen`.  Streams of arbitrary bytes are `List Byte`.
* Functions of the Go standard library (`path/filepath`, `strings`, `bytes`,
  `bufio`) are written out for the Unix build (`Separator = '/'`, no volume
  names), after the Go 1.7 sources.
* A Go `error` is a `GoError`; `fmt.Errorf` is kept as its format and its
  arguments.
* What the operating system and the libraries outside the repository answer
  is a parameter: a record of results (`OS`, `Sys`, `WalkEnv`, `BuildEnv`,
  `ClientEnv`) or a tree of entries (`FsNode`).
* A loop whose iterations can consume several characters takes fuel; the fuel
  given is the length of the input, which bounds the number of iterations.
-/

/-- A Go string holding text. -/
abbrev Str := List Char

deriving instance DecidableEq for Except

/-- Length in bytes of the UTF-8 encoding of a text (`len(s)` in Go). -/
def byteLen (s : Str) : Nat := (s.map Char.utf8Size).sum

namespace strings

/-- Go `strings.HasPrefix`. -/
def HasPrefix (s pre : Str) : Bool := pre.isPrefixOf s

/-- Go `strings.Count(s, sep)` for a one-character separator. -/
def Count (s : Str) (sep : Char) : Nat := s.count sep

end strings

namespace filepath

/-- Go `filepath.Separator` on Unix. -/
def Separator : Char := '/'

/-- Go `os.IsPathSeparator` on Unix. -/
def IsPathSeparator (c : Char) : Bool := c == Separator

/-- Go `filepath.IsAbs` on Unix: `strings.HasPrefix(path, "/")`. -/
def IsAbs (path : Str) : Bool := strings.HasPrefix path [Separator]

/-- The inner loop of the `..` case of `Clean`:
`for out.w > dotdot && !os.IsPathSeparator(out.index(out.w)) { out.w-- }`,
started at `w`; the result is the final `out.w`. -/
def scanBack (buf : Str) (dotdot : Nat) : Nat → Nat
  | 0 => 0
  | w + 1 =>
    if w + 1 > dotdot && !(match buf.get? (w + 1) with
                            | some c => IsPathSeparator c
                            | none => false)
    then scanBack buf dotdot w
    else w + 1

/-- The main loop `for r < n { switch ... }` of `Clean`.  `rest` is
`path[r:]`, `out` is the written part of the `lazybuf` (`out.w = out.length`),
`dotdot` is the index where `..` must stop.  One unit of fuel is one
iteration; every iteration consumes at least one character of `rest`. -/
def cleanLoop (rooted : Bool) : Nat → Str → Str → Nat → Str
  | 0, _, out, _ => out
  | _ + 1, [], out, _ => out
  | fuel + 1, c :: rest, out, dotdot =>
    if IsPathSeparator c then
      -- empty path element
      cleanLoop rooted fuel rest out dotdot
    else if c == '.' && (rest.isEmpty || (rest.head?.any IsPathSeparator)) then
      -- . element
      cleanLoop rooted fuel rest out dotdot
    else if c == '.' && rest.head? == some '.' &&
        ((rest.drop 1).isEmpty || ((rest.drop 1).head?.any IsPathSeparator)) then
      -- .. element: remove to last separator
      if out.length > dotdot then
        -- can backtrack
        cleanLoop rooted fuel (rest.drop 1)
          (out.take (scanBack out dotdot (out.length - 1))) dotdot
      else if !rooted then
        -- cannot backtrack, but not rooted, so append .. element
        let out1 := if out.length > 0 then out ++ [Separator] else out
        let out2 := out1 ++ ['.', '.']
        cleanLoop rooted fuel (rest.drop 1) out2 out2.length
      else
        cleanLoop rooted fuel (rest.drop 1) out dotdot
    else
      -- real path element: add slash if needed, copy element
      let out1 :=
        if (rooted && out.length != 1) || (!rooted && out.length != 0)
        then out ++ [Separator] else out
      let elem := (c :: rest).takeWhile (fun x => !IsPathSeparator x)
      cleanLoop rooted fuel ((c :: rest).dropWhile (fun x => !IsPathSeparator x))
        (out1 ++ elem) dotdot

/-- Go `filepath.Clean` on Unix. -/
def Clean (path : Str) : Str :=
  if path.isEmpty then ['.']
  else
    let rooted := path.head?.any IsPathSeparator
    let out :=
      if rooted then cleanLoop true path.length (path.drop 1) [Separator] 1
      else cleanLoop false path.length path [] 0
    -- Turn empty string into "."
    if out.isEmpty then ['.'] else out

/-- Go `filepath.ToSlash` on Unix (the separator is already `/`). -/
def ToSlash (path : Str) : Str := path

/-- Go `filepath.Join` for two elements on Unix (`join`): from the first
element that is not empty on, the elements are joined with the separator and
the result is cleaned; when all are empty the result is `""`. -/
def Join (a b : Str) : Str :=
  if !a.isEmpty then Clean (a ++ [Separator] ++ b)
  else if !b.isEmpty then Clean b
  else []

/-- The loop of `Rel` that positions `base[b0:bi]` and `targ[t0:ti]` at the
first differing elements.  `b` is `base[b0:]` and `t` is `targ[t0:]` at the
head of an iteration (where `bi = b0`, `ti = t0`).  The result is
`(base[b0:bi], base[b0:], targ[t0:])` when the loop is left. -/
def relLoop : Nat → Str → Str → Str × Str × Str
  | 0, b, t => ([], b, t)
  | fuel + 1, b, t =>
    if b.isEmpty || t.isEmpty then ([], b, t)
    else
      let be := b.takeWhile (fun x => x != Separator)
      let te := t.takeWhile (fun x => x != Separator)
      if te != be then (be, b, t)
      else
        -- if bi < bl { bi++ } ; if ti < tl { ti++ }
        relLoop fuel ((b.dropWhile (fun x => x != Separator)).drop 1)
          ((t.dropWhile (fun x => x != Separator)).drop 1)

/-- The text `..` followed by `seps` times `/..`. -/
def dotdots : Nat → Str
  | 0 => ['.', '.']
  | n + 1 => dotdots n ++ [Separator, '.', '.']

/-- Go `filepath.Rel` on Unix.  `none` is the error
`Rel: can't make targpath relative to basepath`. -/
def Rel (basepath targpath : Str) : Option Str :=
  let base := Clean basepath
  let targ := Clean targpath
  if targ == base then some ['.']
  else
    let base := if base == ['.'] then [] else base
    let baseSlashed := base.head? == some Separator
    let targSlashed := targ.head? == some Separator
    if baseSlashed != targSlashed then none
    else
      match relLoop (base.length + 1) base targ with
      | (bElem, bRest, tRest) =>
        if bElem == ['.', '.'] then none
        else if !bRest.isEmpty then
          -- Base elements left. Must go up before going down.
          let seps := strings.Count bRest Separator
          if !tRest.isEmpty then some (dotdots seps ++ [Separator] ++ tRest)
          else some (dotdots seps)
        else some tRest

end filepath

namespace strings

/-- Go `strings.ToLower`, on ASCII letters (its only use is on the constant
`DefaultEnginefileName`). -/
def ToLower (s : Str) : Str := s.map Char.toLower

end strings

/-- How the `os` package classifies an error: `os.IsNotExist`,
`os.IsPermission`, or neither. -/
inductive ErrKind where
  | notExist
  | permission
  | other
  deriving DecidableEq, Repr

/-- A Go `error` value.  `os` is an error of the operating system with its
classification and text; `errorf` is `fmt.Errorf(format, args...)` with text
arguments; `wrap` is a `fmt.Errorf` whose last argument is another error;
`SkipDir` is `filepath.SkipDir`; `statusError` is `cli.StatusError`;
`jsonError` is `*jsonmessage.JSONError`. -/
inductive GoError where
  | os (kind : ErrKind) (text : Str)
  | errorf (format : String) (args : List Str)
  | wrap (format : String) (args : List Str) (cause : GoError)
  | SkipDir
  | statusError (status : Str) (statusCode : Int)
  | jsonError (code : Int) (message : Str)
  deriving DecidableEq, Repr

/-- Go `os.IsNotExist`. -/
def GoError.IsNotExist : GoError → Bool
  | .os .notExist _ => true
  | _ => false

/-- Go `os.IsPermission`. -/
def GoError.IsPermission : GoError → Bool
  | .os .permission _ => true
  | _ => false

/-- The part of `os.FileInfo` the code looks at: `IsDir()` and the mode bits
`os.ModeSymlink`, `os.ModeNamedPipe`. -/
structure FileInfo where
  isDir : Bool
  modeSymlink : Bool := false
  modeNamedPipe : Bool := false
  deriving DecidableEq, Repr

/-- The answers of the operating system that context resolution asks for. -/
structure OS where
  /-- Result of `os.Getwd()`. -/
  getwd : Except GoError Str
  /-- Result of `os.Lstat(path)`. -/
  lstat : Str → Except GoError FileInfo
  /-- Result of `filepath.EvalSymlinks(path)`. -/
  evalSymlinks : Str → Except GoError Str
  /-- Result of `exec.LookPath("git")`: the error, if any. -/
  lookPathGit : Option GoError
  /-- Result of `gitutils.Clone(url)`: the temporary directory. -/
  gitClone : Str → Except GoError Str

namespace filepath

/-- Go `filepath.Abs` on Unix (`unixAbs`). -/
def Abs (sys : OS) (path : Str) : Except GoError Str :=
  if IsAbs path then .ok (Clean path)
  else
    match sys.getwd with
    | .error e => .error e
    | .ok wd => .ok (Join wd path)

end filepath

namespace builder

/-- Go `builder.DefaultEnginefileName`. -/
def DefaultEnginefileName : Str := "Enginefile".toList

/-- Go `isUNC`: `runtime.GOOS == "windows" && ...`, false on the Unix build. -/
def isUNC (_path : Str) : Bool := false

/-- Go `getEnginefileRelPath`: the absolute context directory and the path of
the Enginefile relative to it. -/
def getEnginefileRelPath (sys : OS) (givenContextDir givenEnginefile : Str) :
    Except GoError (Str × Str) :=
  match filepath.Abs sys givenContextDir with
  | .error e =>
    .error (.wrap "unable to get absolute context directory of given context directory %q: %v"
      [givenContextDir] e)
  | .ok absContextDir0 =>
  -- The context dir might be a symbolic link, so follow it.
  match (if !isUNC absContextDir0 then sys.evalSymlinks absContextDir0
         else .ok absContextDir0) with
  | .error e => .error (.wrap "unable to evaluate symlinks in context path: %v" [] e)
  | .ok absContextDir =>
  match sys.lstat absContextDir with
  | .error e => .error (.wrap "unable to stat context directory %q: %v" [absContextDir] e)
  | .ok stat =>
  if !stat.isDir then
    .error (.errorf "context must be a directory: %s" [absContextDir])
  else
    let absEnginefile1 :=
      if givenEnginefile.isEmpty then
        -- No -f/--file was specified so use the default relative to the
        -- context directory.
        let dflt := filepath.Join absContextDir DefaultEnginefileName
        match sys.lstat dflt with
        | .error e =>
          if e.IsNotExist then
            let altPath := filepath.Join absContextDir (strings.ToLower DefaultEnginefileName)
            match sys.lstat altPath with
            | .ok _ => altPath
            | .error _ => dflt
          else dflt
        | .ok _ => dflt
      else givenEnginefile
    -- If not already an absolute path, join it to the base directory.
    let absEnginefile2 :=
      if !filepath.IsAbs absEnginefile1 then filepath.Join absContextDir absEnginefile1
      else absEnginefile1
    -- Evaluate symlinks in the path to the Enginefile too.
    match (if !isUNC absEnginefile2 then sys.evalSymlinks absEnginefile2
           else .ok absEnginefile2) with
    | .error e => .error (.wrap "unable to evaluate symlinks in Enginefile path: %v" [] e)
    | .ok absEnginefile =>
    match sys.lstat absEnginefile with
    | .error e =>
      if e.IsNotExist then .error (.errorf "Cannot locate Enginefile: %q" [absEnginefile])
      else .error (.wrap "unable to stat Enginefile: %v" [] e)
    | .ok _ =>
    match filepath.Rel absContextDir absEnginefile with
    | none =>
      .error (.wrap "unable to get relative Enginefile path: %v" []
        (.errorf "Rel: can't make %s relative to %s" [absEnginefile, absContextDir]))
    | some relEnginefile =>
    if strings.HasPrefix relEnginefile ("..".toList ++ [filepath.Separator]) then
      .error (.errorf "The Enginefile (%s) must be within the build context (%s)"
        [givenEnginefile, givenContextDir])
    else .ok (absContextDir, relEnginefile)

/-- Go `GetContextFromLocalDir`. -/
def GetContextFromLocalDir (sys : OS) (localDir enginefileName : Str) :
    Except GoError (Str × Str) :=
  -- With -f/--file the Enginefile is relative to the current directory and
  -- not to the context directory.
  if !enginefileName.isEmpty then
    match filepath.Abs sys enginefileName with
    | .error e => .error (.wrap "unable to get absolute path to Enginefile: %v" [] e)
    | .ok absName => getEnginefileRelPath sys localDir absName
  else getEnginefileRelPath sys localDir enginefileName

/-- Go `GetContextFromGitURL`. -/
def GetContextFromGitURL (sys : OS) (gitURL enginefileName : Str) :
    Except GoError (Str × Str) :=
  match sys.lookPathGit with
  | some e => .error (.wrap "unable to find 'git': %v" [] e)
  | none =>
  match sys.gitClone gitURL with
  | .error e =>
    .error (.wrap "unable to 'git clone' to temporary context directory: %v" [] e)
  | .ok absContextDir => getEnginefileRelPath sys absContextDir enginefileName

end builder

/-- An operating system with the directories `/a` and `/a/b`, the regular file
`/a/b/Enginefile`, no symbolic links, and working directory `/a`. -/
def exampleOS : OS where
  getwd := .ok "/a".toList
  lstat p :=
    if p = "/a".toList ∨ p = "/a/b".toList ∨ p = "/".toList then .ok { isDir := true }
    else if p = "/a/b/Enginefile".toList then .ok { isDir := false }
    else .error (.os .notExist ("lstat: no such file or directory".toList))
  evalSymlinks p :=
    if filepath.Clean p = "/a".toList ∨ filepath.Clean p = "/a/b".toList
        ∨ filepath.Clean p = "/".toList ∨ filepath.Clean p = "/a/b/Enginefile".toList
    then .ok (filepath.Clean p)
    else .error (.os .notExist ("lstat: no such file or directory".toList))
  lookPathGit := none
  gitClone _ := .ok "/a/b".toList

namespace unicode

/-- Go `unicode.IsSpace`: the white space characters of Unicode. -/
def IsSpace (c : Char) : Bool :=
  let n := c.toNat
  (0x09 ≤ n && n ≤ 0x0D) || n == 0x20 || n == 0x85 || n == 0xA0 || n == 0x1680
    || (0x2000 ≤ n && n ≤ 0x200A) || n == 0x2028 || n == 0x2029 || n == 0x202F
    || n == 0x205F || n == 0x3000

end unicode

namespace strings

/-- Go `strings.TrimSpace`: all leading and trailing white space removed. -/
def TrimSpace (s : Str) : Str :=
  ((s.dropWhile unicode.IsSpace).reverse.dropWhile unicode.IsSpace).reverse

end strings

namespace bytes

/-- Go `bytes.TrimPrefix`. -/
def TrimPrefix (s pre : Str) : Str :=
  if strings.HasPrefix s pre then s.drop pre.length else s

end bytes

namespace bufio

/-- Go `bufio.MaxScanTokenSize`: the size of the largest buffer a `Scanner`
allocates, `64 * 1024` bytes. -/
def MaxScanTokenSize : Nat := 64 * 1024

/-- Go `bufio.ErrTooLong`. -/
def ErrTooLong : GoError := .errorf "bufio.Scanner: token too long" []

/-- Go `dropCR` of `bufio.ScanLines`: a terminal `\r` is dropped. -/
def dropCR (data : Str) : Str :=
  if data.getLast? == some '\r' then data.dropLast else data

/-- A `bufio.Scanner` with the split function `ScanLines`, run over an
in-memory text until `Scan()` returns false: the tokens it delivered, and
`scanner.Err()`.  `data` is the unread text.  A token is `data[0:i]` for the
first newline at `i` (the line is consumed with its newline) or, at the end of
the text, the non-empty remainder; `dropCR` is applied to it.  The scanner
gives up with `ErrTooLong` when its buffer, which holds at most
`MaxScanTokenSize` bytes, is full and holds no newline.  One unit of fuel is
one call of `Scan()`. -/
def scan : Nat → Str → List Str × Option GoError
  | 0, _ => ([], none)
  | fuel + 1, data =>
    if data.isEmpty then ([], none)
    else
      let line := data.takeWhile (fun c => c != '\n')
      if byteLen line ≥ MaxScanTokenSize then ([], some ErrTooLong)
      else
        match data.dropWhile (fun c => c != '\n') with
        | [] => ([dropCR line], none)
        | _ :: rest =>
          let r := scan fuel rest
          (dropCR line :: r.1, r.2)

/-- A new scanner over a text, run to completion. -/
def NewScanner (text : Str) : List Str × Option GoError :=
  scan (text.length + 1) text

end bufio

namespace provignore

/-- The UTF-8 byte order mark `EF BB BF`, the encoding of U+FEFF. -/
def utf8bom : Str := [Char.ofNat 0xFEFF]

/-- The loop `for scanner.Scan() { ... }` of `ReadAll` over the tokens the
scanner delivers; the state is `currentLine` and `excludes`. -/
def readLoop : List Str → Nat → List Str → List Str
  | [], _, excludes => excludes
  | scannedBytes :: rest, currentLine, excludes =>
    -- We trim UTF8 BOM
    let scannedBytes :=
      if currentLine == 0 then bytes.TrimPrefix scannedBytes utf8bom else scannedBytes
    let pattern := scannedBytes
    let currentLine := currentLine + 1
    -- Lines starting with # (comments) are ignored before processing
    if strings.HasPrefix pattern ['#'] then readLoop rest currentLine excludes
    else
      let pattern := strings.TrimSpace pattern
      if pattern.isEmpty then readLoop rest currentLine excludes
      else
        let pattern := filepath.Clean pattern
        let pattern := filepath.ToSlash pattern
        readLoop rest currentLine (excludes ++ [pattern])

/-- Go `provignore.ReadAll`.  `none` is the nil reader; `some text` is a
reader over an in-memory text. -/
def ReadAll (reader : Option Str) : Except GoError (List Str) :=
  match reader with
  | none => .ok []
  | some text =>
    let scanner := bufio.NewScanner text
    let excludes := readLoop scanner.1 0 []
    match scanner.2 with
    | some err => .error (.wrap "Error reading .provignore: %v" [] err)
    | none => .ok excludes

/-! ### The reading of an ignore file as the specification words it -/

/-- The lines of a text: the pieces between newlines; what follows the last
newline is a line only when it is not empty. -/
def splitLines : Str → List Str
  | [] => []
  | c :: rest =>
    if c == '\n' then [] :: splitLines rest
    else
      match splitLines rest with
      | [] => [[c]]
      | l :: ls => (c :: l) :: ls

/-- The pattern a line stands for, if any: none for a comment (a line that
starts with `#`) and for a line that is empty after trimming; otherwise the
trimmed line, cleaned and with forward slashes. -/
def linePattern (line : Str) : Option Str :=
  if strings.HasPrefix line ['#'] then none
  else if (strings.TrimSpace line).isEmpty then none
  else some (filepath.ToSlash (filepath.Clean (strings.TrimSpace line)))

/-- The byte order mark is stripped from the first line only. -/
def stripFirstBOM : List Str → List Str
  | [] => []
  | l :: ls => bytes.TrimPrefix l utf8bom :: ls

/-- The lines of an ignore file as they are read: each line without its
terminal carriage return, the first one without a leading byte order mark. -/
def ignoreLines (text : Str) : List Str :=
  stripFirstBOM ((splitLines text).map bufio.dropCR)

/-- The pattern list of a text as the specification describes it: one pattern
for each line that has one, in input order. -/
def patternsOf (text : Str) : List Str :=
  (ignoreLines text).filterMap linePattern

end provignore

namespace filepath

/-- The elements of a path: the pieces between separators. -/
def pathElems : Str → List Str
  | [] => [[]]
  | c :: rest =>
    if c == Separator then [] :: pathElems rest
    else
      match pathElems rest with
      | [] => [[c]]
      | e :: es => (c :: e) :: es

end filepath

/-! ### Streams and the temporary directory of `GetContextFromReader` -/

/-- A byte of a stream. -/
abbrev Byte := UInt8

/-- An `io.ReadCloser` handed to `GetContextFromReader`: the bytes it yields
before it ends, the error it ends with (`none` is `io.EOF`), and the result of
its `Close()`. -/
structure Reader where
  data : List Byte
  readErr : Option GoError := none
  closeErr : Option GoError := none
  deriving DecidableEq

/-- The temporary directories that exist, each with its path and its files
(name and contents). -/
structure World where
  tmpDirs : List (Str × List (Str × List Byte))
  deriving DecidableEq

/-- What the surroundings of `GetContextFromReader` answer: the constant and
the functions of `docker/pkg/archive`, and the results of the file
operations. -/
structure Sys where
  /-- The constant `archive.HeaderSize`. -/
  HeaderSize : Nat
  /-- The function `archive.IsArchive`. -/
  IsArchive : List Byte → Bool
  /-- The result of `ioutil.TempDir("", "providence-build-context-")`: the path
  of the new, empty directory. -/
  TempDir : Except GoError Str
  /-- The error of `os.Create(filepath.Join(dir, name))`, if it fails. -/
  Create : Str → Str → Option GoError
  /-- A failing `Write` during `io.Copy`: how many bytes were written before
  it, and the error. -/
  writeFault : Option (Nat × GoError)
  /-- The result of `f.Close()` on the created file. -/
  fileClose : Option GoError
  /-- The function `archive.Tar(dir, archive.Uncompressed)`: the archive
  stream for a directory with the given files, and the result of closing
  that stream. -/
  Tar : Str → List (Str × List Byte) → Except GoError (List Byte × Option GoError)

/-- The `closer` function given to `ioutils.NewReadCloserWrapper`. -/
inductive Closer where
  /-- `func() error { return r.Close() }`. -/
  | reader (closeErr : Option GoError)
  /-- `func() error { err := tar.Close(); os.RemoveAll(tmpDir); return err }`. -/
  | tarThenRemoveAll (tarCloseErr : Option GoError) (tmpDir : Str)
  deriving DecidableEq

/-- The stream made by `ioutils.NewReadCloserWrapper`: the bytes read from
it, the error it ends with (`none` is `io.EOF`), and what `Close()` runs. -/
structure ReadCloser where
  data : List Byte
  readErr : Option GoError
  closer : Closer
  deriving DecidableEq

namespace os

/-- Go `os.RemoveAll` on a temporary directory. -/
def RemoveAll (w : World) (dir : Str) : World :=
  { tmpDirs := w.tmpDirs.filter (fun d => d.1 != dir) }

/-- The files of a directory, `none` when it does not exist. -/
def ReadDir (w : World) (dir : Str) : Option (List (Str × List Byte)) :=
  (w.tmpDirs.find? (fun d => d.1 == dir)).map Prod.snd

/-- The contents of a file written into directory `dir` under `name`
(`os.Create` truncates a file that exists and creates it otherwise). -/
def writeFile (w : World) (dir name : Str) (contents : List Byte) : World :=
  { tmpDirs := w.tmpDirs.map (fun d =>
      if d.1 == dir then (d.1, (d.2.filter (fun f => f.1 != name)) ++ [(name, contents)])
      else d) }

end os

namespace ioutils

/-- Go `(*readCloserWrapper).Close`: runs the closer. -/
def Close (rc : ReadCloser) (w : World) : Option GoError × World :=
  match rc.closer with
  | .reader closeErr => (closeErr, w)
  | .tarThenRemoveAll tarCloseErr tmpDir => (tarCloseErr, os.RemoveAll w tmpDir)

end ioutils

namespace bufio

/-- The default buffer size of `bufio.NewReader`. -/
def defaultBufSize : Nat := 4096

/-- Go `bufio.ErrBufferFull`. -/
def ErrBufferFull : GoError := .errorf "bufio: buffer full" []

/-- Go `io.EOF`. -/
def EOF : GoError := .errorf "EOF" []

/-- Go `(*bufio.Reader).Peek(n)` on a fresh `bufio.NewReader(r)`: the next `n`
bytes without advancing the reader.  With fewer than `n` bytes available the
result is what there is, with the error the underlying reader ended with
(`io.EOF` at the end of the stream); `n` larger than the buffer gives
`ErrBufferFull`. -/
def Peek (r : Reader) (n : Nat) : List Byte × Option GoError :=
  if n > defaultBufSize then
    (r.data.take defaultBufSize, some ErrBufferFull)
  else if r.data.length < n then
    (r.data, some (r.readErr.getD EOF))
  else (r.data.take n, none)

end bufio

namespace builder

/-- Go `GetContextFromReader`: reads the stream as either an Enginefile or a
tar archive; returns the tar archive used as context and the path of the
Enginefile inside it, together with the temporary directories that exist
afterwards. -/
def GetContextFromReader (sys : Sys) (w : World) (r : Reader) (enginefileName : Str) :
    Except GoError (ReadCloser × Str) × World :=
  -- buf := bufio.NewReader(r); magic, err := buf.Peek(archive.HeaderSize)
  let (magic, err) := bufio.Peek r sys.HeaderSize
  if err.isSome && err != some bufio.EOF then
    (.error (.wrap "failed to peek context header from STDIN: %v" [] (err.getD bufio.EOF)), w)
  else if sys.IsArchive magic then
    (.ok ({ data := r.data, readErr := r.readErr, closer := .reader r.closeErr },
      enginefileName), w)
  else
    -- Input should be read as a Enginefile.
    match sys.TempDir with
    | .error e =>
      (.error (.wrap "unbale to create temporary context directory: %v" [] e), w)
    | .ok tmpDir =>
    let w1 : World := { tmpDirs := (tmpDir, []) :: w.tmpDirs }
    match sys.Create tmpDir DefaultEnginefileName with
    | some e => (.error e, w1)
    | none =>
    -- _, err = io.Copy(f, buf): a failing Write comes first, then the error
    -- the stream ends with
    match sys.writeFault.filter (fun wf => wf.1 < r.data.length), r.readErr with
    | some (n, e), _ =>
      (.error e, os.writeFile w1 tmpDir DefaultEnginefileName (r.data.take n))
    | none, some e =>
      (.error e, os.writeFile w1 tmpDir DefaultEnginefileName r.data)
    | none, none =>
    let w2 := os.writeFile w1 tmpDir DefaultEnginefileName r.data
    match sys.fileClose with
    | some e => (.error e, w2)
    | none =>
    match r.closeErr with
    | some e => (.error e, w2)
    | none =>
    match sys.Tar tmpDir ((os.ReadDir w2 tmpDir).getD []) with
    | .error e => (.error e, w2)
    | .ok (tar, tarCloseErr) =>
      (.ok ({ data := tar, readErr := none, closer := .tarThenRemoveAll tarCloseErr tmpDir },
        DefaultEnginefileName), w2)

/-- Surroundings in which nothing fails: `archive.HeaderSize` is 512, an
archive is recognised by the gzip signature `1F 8B 08`, the temporary
directory is `/tmp/ctx`, and the archive of a directory is the concatenation
of its file contents. -/
def exampleSys : Sys where
  HeaderSize := 512
  IsArchive magic := magic.take 3 == [0x1F, 0x8B, 0x08]
  TempDir := .ok "/tmp/ctx".toList
  Create _ _ := none
  writeFault := none
  fileClose := none
  Tar _ files := .ok ((files.map Prod.snd).flatten, none)

end builder

/-! ### The context tree and `ValidateContextDirectory` -/

/-- An error of a file operation (`*os.PathError`): its classification and
its text. -/
structure PathError where
  kind : ErrKind
  text : Str
  deriving DecidableEq, Repr

/-- A file error as a Go `error` value. -/
def PathError.toError (e : PathError) : GoError := .os e.kind e.text

mutual
/-- An entry of the file system below the context root: its base name, what
`os.Lstat` answers for it, the error of `os.Open` on it (`none`: it opens),
the error of reading it as a directory (`none`: its names are read), and its
entries in the order `readDirNames` gives them (sorted). -/
inductive FsNode where
  | mk (name : Str) (lstat : Except PathError FileInfo) (openErr : Option PathError)
      (readDirErr : Option PathError) (children : FsForest)
/-- The entries of a directory. -/
inductive FsForest where
  | nil
  | cons (head : FsNode) (tail : FsForest)
end

/-- What the validation walk does to an entry, in walk order. -/
inductive Event where
  /-- The entry is not excluded by the patterns: validation goes on to check it. -/
  | checked (path : Str)
  /-- The entry is opened for reading with `os.Open`, with this error. -/
  | opened (path : Str) (err : Option GoError)
  deriving DecidableEq, Repr

/-- What `ValidateContextDirectory` and the archiver take from outside:
`getContextRoot` (declared by this package per platform) and
`fileutils.Matches` of `docker/pkg/fileutils`. -/
structure WalkEnv where
  getContextRoot : Str → Except GoError Str
  Matches : Str → List Str → Except GoError Bool

namespace builder

/-- The function literal that `ValidateContextDirectory` gives to
`filepath.Walk`.  `f` is `none` for a nil `os.FileInfo`; `openErr` is what
`os.Open(filePath)` answers. -/
def validateWalkFn (env : WalkEnv) (contextRoot : Str) (excludes : List Str)
    (filePath : Str) (f : Option FileInfo) (openErr : Option GoError)
    (err : Option GoError) : Option GoError × List Event :=
  match err with
  | some e =>
    if e.IsPermission then (some (.errorf "can't stat '%s'" [filePath]), [])
    else if e.IsNotExist then (none, [])
    else (some e, [])
  | none =>
    -- skip this directory/file if it's not in the path, it won't get added
    -- to the context
    match filepath.Rel contextRoot filePath with
    | none =>
      (some (.errorf "Rel: can't make %s relative to %s" [filePath, contextRoot]), [])
    | some relFilePath =>
    match env.Matches relFilePath excludes with
    | .error e => (some e, [])
    | .ok true =>
      if (f.map FileInfo.isDir).getD false then (some .SkipDir, []) else (none, [])
    | .ok false =>
    -- skip checking if symlinks point to non-existing files, also skip
    -- named pipes, because they hanging on open
    if (f.map (fun i => i.modeSymlink || i.modeNamedPipe)).getD false then
      (none, [.checked filePath])
    else if !(f.map FileInfo.isDir).getD false then
      match openErr with
      | some e =>
        if e.IsPermission then
          (some (.errorf "no permission to read from '%s'" [filePath]),
            [.checked filePath, .opened filePath (some e)])
        else (none, [.checked filePath, .opened filePath (some e)])
      | none => (none, [.checked filePath, .opened filePath none])
    else (none, [.checked filePath])

mutual
/-- Go `filepath.walk` (Go 1.7) with the function of
`ValidateContextDirectory`: the entry at `path`, whose `Lstat` gave `info`. -/
def walk (env : WalkEnv) (contextRoot : Str) (excludes : List Str) (path : Str)
    (info : FileInfo) : FsNode → Option GoError × List Event
  | .mk _ _ openErr readDirErr children =>
    match validateWalkFn env contextRoot excludes path (some info)
        (openErr.map PathError.toError) none with
    | (some err, ev) =>
      if info.isDir && err == .SkipDir then (none, ev) else (some err, ev)
    | (none, ev) =>
      if !info.isDir then (none, ev)
      else
        match readDirErr with
        | some e =>
          let r := validateWalkFn env contextRoot excludes path (some info)
            (openErr.map PathError.toError) (some e.toError)
          (r.1, ev ++ r.2)
        | none =>
          let r := walkNames env contextRoot excludes path children
          (r.1, ev ++ r.2)
/-- The loop `for _, name := range names` of `filepath.walk`. -/
def walkNames (env : WalkEnv) (contextRoot : Str) (excludes : List Str) (path : Str) :
    FsForest → Option GoError × List Event
  | .nil => (none, [])
  | .cons (.mk name lstat openErr readDirErr children) rest =>
    let filename := filepath.Join path name
    match lstat with
    | .error e =>
      match validateWalkFn env contextRoot excludes filename none
          (openErr.map PathError.toError) (some e.toError) with
      | (some err, ev) =>
        if err != .SkipDir then (some err, ev)
        else
          let r := walkNames env contextRoot excludes path rest
          (r.1, ev ++ r.2)
      | (none, ev) =>
        let r := walkNames env contextRoot excludes path rest
        (r.1, ev ++ r.2)
    | .ok fileInfo =>
      match walk env contextRoot excludes filename fileInfo
          (.mk name lstat openErr readDirErr children) with
      | (some err, ev) =>
        if !fileInfo.isDir || err != .SkipDir then (some err, ev)
        else
          let r := walkNames env contextRoot excludes path rest
          (r.1, ev ++ r.2)
      | (none, ev) =>
        let r := walkNames env contextRoot excludes path rest
        (r.1, ev ++ r.2)
end

/-- Go `filepath.Walk` (Go 1.7) with the function of
`ValidateContextDirectory`; `rootNode` is the entry at `root`. -/
def Walk (env : WalkEnv) (excludes : List Str) (root : Str) : FsNode →
    Option GoError × List Event
  | .mk name lstat openErr readDirErr children =>
    match lstat with
    | .error e =>
      validateWalkFn env root excludes root none (openErr.map PathError.toError)
        (some e.toError)
    | .ok info => walk env root excludes root info (.mk name lstat openErr readDirErr children)

/-- Go `ValidateContextDirectory`: checks that all the contents of the
directory can be read.  `tree` is the file system at the context root.  The
result is the returned error and what the walk did. -/
def ValidateContextDirectory (env : WalkEnv) (tree : FsNode) (srcPath : Str)
    (excludes : List Str) : Option GoError × List Event :=
  match env.getContextRoot srcPath with
  | .error err => (some err, [])
  | .ok contextRoot => Walk env excludes contextRoot tree

end builder

/-- Surroundings for examples: the context root is the cleaned path, and a
path matches when it is one of the patterns. -/
def exampleWalkEnv : WalkEnv where
  getContextRoot srcPath := .ok (filepath.Join srcPath ".".toList)
  Matches file patterns := .ok (patterns.contains file)

/-- A regular file that opens. -/
def regularFile (name : String) : FsNode :=
  .mk name.toList (.ok { isDir := false }) none none .nil

/-- A regular file whose `os.Open` fails with the given error. -/
def unreadableFile (name : String) (err : PathError) : FsNode :=
  .mk name.toList (.ok { isDir := false }) (some err) none .nil

/-- A directory with the given entries. -/
def directory (name : String) (entries : FsForest) : FsNode :=
  .mk name.toList (.ok { isDir := true }) none none entries

/-- The context `/ctx` with the entries `a` (a regular file), `build` (a
directory holding `out`), `sock` (an entry whose open fails with `ENXIO`, as
for a Unix socket) and `z` (a regular file). -/
def exampleTree : FsNode :=
  directory "ctx"
    (.cons (regularFile "a")
    (.cons (directory "build" (.cons (regularFile "out") .nil))
    (.cons (unreadableFile "sock" ⟨.other, "open /ctx/sock: no such device or address".toList⟩)
    (.cons (regularFile "z") .nil))))

/-- The same context with the entry `secret`, unreadable for lack of
permission, in the place of `sock`. -/
def exampleTreeDenied : FsNode :=
  directory "ctx"
    (.cons (regularFile "a")
    (.cons (directory "build" (.cons (regularFile "out") .nil))
    (.cons (unreadableFile "secret" ⟨.permission, "open /ctx/secret: permission denied".toList⟩)
    (.cons (regularFile "z") .nil))))

/-- The event is an open that failed for lack of permission. -/
def Event.isDeniedOpen : Event → Bool
  | .opened _ (some e) => e.IsPermission
  | _ => false

/-- The error `no permission to read from '<path>'`. -/
def noPermissionError (path : Str) : GoError :=
  .errorf "no permission to read from '%s'" [path]

/-- A run of the validation walk stops at a denied open: either no open was
denied, or the denied open is the last thing the walk did and the walk
returned the `no permission` error for that path. -/
def StopsAtDenied (r : Option GoError × List Event) : Prop :=
  (∀ x ∈ r.2, x.isDeniedOpen = false)
  ∨ ∃ init p e, r.2 = init ++ [.opened p (some e)] ∧ e.IsPermission = true
      ∧ (∀ x ∈ init, x.isDeniedOpen = false) ∧ r.1 = some (noPermissionError p)

mutual
/-- The entries of the file system at `path` and below, in walk order: the
path of each, what `os.Lstat` answers for it, and the error of `os.Open` on
it (`none`: it opens). -/
def nodeEntries (path : Str) :
    FsNode → List (Str × Except PathError FileInfo × Option PathError)
  | .mk _ lstat openErr _ children => (path, lstat, openErr) :: dirEntries path children
/-- The entries below the directory `dir`. -/
def dirEntries (dir : Str) :
    FsForest → List (Str × Except PathError FileInfo × Option PathError)
  | .nil => []
  | .cons (.mk name lstat openErr readDirErr children) rest =>
    nodeEntries (filepath.Join dir name) (.mk name lstat openErr readDirErr children)
      ++ dirEntries dir rest
end

/-- Every entry that a run of the validation walk checked is an entry of the
file system for which `os.Lstat` succeeded, and when it is not a directory, a
symbolic link or a named pipe, the run opened it, with the answer that
`os.Open` gives for it. -/
def CheckedOpened (entries : List (Str × Except PathError FileInfo × Option PathError))
    (log : List Event) : Prop :=
  ∀ p, Event.checked p ∈ log →
    ∃ info openErr, (p, .ok info, openErr) ∈ entries
      ∧ (info.isDir = false → (info.modeSymlink || info.modeNamedPipe) = false →
          Event.opened p (openErr.map PathError.toError) ∈ log)

/-! ### The archive of a context, from the specification -/

/-- What `os.Lstat` answers for the entry. -/
def FsNode.lstat : FsNode → Except PathError FileInfo
  | .mk _ lstat _ _ _ => lstat

/-- The path matches the exclusion patterns: its path relative to the context
root is matched by `Matches`. -/
def pathMatches (env : WalkEnv) (contextRoot : Str) (excludes : List Str) (filePath : Str) :
    Bool :=
  match filepath.Rel contextRoot filePath with
  | none => false
  | some relFilePath => env.Matches relFilePath excludes == .ok true

mutual
/-- The entries of the tree at `path` that exist, in walk order, each with the
paths of itself and of the directories above it up to the context root
(`above` are those of the directories above `path`). -/
def treeEntries (path : Str) (above : List Str) : FsNode → List (Str × List Str)
  | .mk _ lstat _ readDirErr children =>
    match lstat with
    | .error _ => []
    | .ok info =>
      (path, path :: above) ::
        (if info.isDir && readDirErr.isNone then forestEntries path (path :: above) children
         else [])
/-- The entries below the directory `dir`. -/
def forestEntries (dir : Str) (above : List Str) : FsForest → List (Str × List Str)
  | .nil => []
  | .cons (.mk name lstat openErr readDirErr children) rest =>
    treeEntries (filepath.Join dir name) above (.mk name lstat openErr readDirErr children)
      ++ forestEntries dir above rest
end

/-- The paths of the entries that validation did not skip, in walk order. -/
def checkedPaths (log : List Event) : List Str :=
  log.filterMap (fun ev => match ev with
    | .checked path => some path
    | .opened _ _ => none)

/-! ### `runBuild` and `main` -/

/-- The compression modes of `docker/pkg/archive` that `runBuild` uses. -/
inductive Compression where
  | Uncompressed
  | Gzip
  deriving DecidableEq, Repr

/-- The fields of `archive.TarOptions` that `runBuild` sets. -/
structure TarOptions where
  Compression : Compression
  ExcludePatterns : List Str
  IncludeFiles : List Str
  deriving DecidableEq, Repr

/-- Go `buildOptions`: the options of `prov engine build`. -/
structure buildOptions where
  context : Str
  enginefileName : Str
  quiet : Bool
  compress : Bool
  deriving DecidableEq, Repr

/-- What was written to the output stream and to the error stream. -/
structure Output where
  out : Str := []
  err : Str := []
  deriving DecidableEq, Repr

/-- What the collaborators of `runBuild` answer. -/
structure BuildEnv where
  /-- The operating system, for the resolution of the context. -/
  sys : OS
  /-- The function `urlutil.IsURL`. -/
  IsURL : Str → Bool
  /-- The result of `os.Open(path)`: the text of the file. -/
  Open : Str → Except GoError Str
  /-- The surroundings of the validation walk. -/
  walkEnv : WalkEnv
  /-- The file system at the context directory. -/
  tree : FsNode
  /-- The function `archive.TarWithOptions`: the archive stream. -/
  TarWithOptions : Str → TarOptions → Except GoError (List Byte)
  /-- The call `provCli.Client().EngineBuild(ctx, body, buildOptions)` for a
  request body and the `Enginefile` option: the progress text written while
  the body is read, and the response body or the error. -/
  EngineBuild : List Byte → Str → Str × Except GoError (List Byte)
  /-- The function `jsonmessage.DisplayJSONMessagesStream` on a response body:
  the text it writes, and the error it returns. -/
  DisplayJSONMessagesStream : List Byte → Str × Option GoError

namespace engine

/-- The first part of Go `runBuild`, up to the call of `EngineBuild`: either
`runBuild` returns (the returned error and what was written), or the request
succeeded, with the progress text written to `progBuff` and the response
body. -/
def runBuildUpload (env : BuildEnv) (options : buildOptions) :
    (Option GoError × Output) ⊕ (Str × List Byte) :=
  let specifiedContext := options.context
  match builder.GetContextFromLocalDir env.sys specifiedContext options.enginefileName with
  | .error err =>
    -- fmt.Fprintln(provCli.Err(), progBuff) with the empty buffer
    .inl (some (.wrap "unable to prepare context: %s" [] err),
      if options.quiet && env.IsURL specifiedContext then { err := ['\n'] } else {})
  | .ok (contextDir, relEnginefile) =>
  let f := env.Open (filepath.Join contextDir ".provignore".toList)
  match (match f with
         | .error err => if !err.IsNotExist then some err else none
         | .ok _ => none) with
  | some err => .inl (some err, {})
  | none =>
  match (match f with
         | .ok text => provignore.ReadAll (some text)
         | .error _ => .ok []) with
  | .error err => .inl (some err, {})
  | .ok excludes =>
  match (builder.ValidateContextDirectory env.walkEnv env.tree contextDir excludes).1 with
  | some err => .inl (some (.wrap "Error checking context: '%s'." [] err), {})
  | none =>
  let includes := [".".toList]
  let compression := if options.compress then Compression.Gzip else Compression.Uncompressed
  match env.TarWithOptions contextDir
      { Compression := compression, ExcludePatterns := excludes, IncludeFiles := includes } with
  | .error err => .inl (some err, {})
  | .ok buildCtx =>
  -- the body is the archive behind a progress reader that writes to progBuff
  match env.EngineBuild buildCtx relEnginefile with
  | (progress, .error err) =>
    .inl (some err, if options.quiet then { err := progress } else { out := progress })
  | (progress, .ok responseBody) => .inr (progress, responseBody)

/-- Go `runBuild`: the returned error and what was written to the output and
error streams.  With `options.quiet` the progress text and the server text go
to the buffers `progBuff` and `buildBuff` instead of the output stream. -/
def runBuild (env : BuildEnv) (options : buildOptions) : Option GoError × Output :=
  match runBuildUpload env options with
  | .inl result => result
  | .inr (progress, responseBody) =>
  match env.DisplayJSONMessagesStream responseBody with
  | (serverText, some (.jsonError code message)) =>
    -- if no error code is set, default to 1
    let code := if code == 0 then 1 else code
    (some (.statusError message code),
      if options.quiet then { err := progress ++ serverText }
      else { out := progress ++ serverText })
  | (serverText, _) =>
    -- Everything worked so if -q was provided the output from the server
    -- should be just the engine ID and we print that to stdout.
    (none, if options.quiet then { out := serverText } else { out := progress ++ serverText })

end engine

/-- Go `main` after `cmd.Execute()` returned `err`: the argument of `os.Exit`
(0 when `main` returns normally). -/
def mainExitCode (err : Option GoError) : Int :=
  match err with
  | none => 0
  | some (.statusError _ statusCode) =>
    -- StatusError should only be used for errors, and all errors should have
    -- a non-zero exit status, so never exit with 0
    if statusCode == 0 then 1 else statusCode
  | some _ => 1

/-- A `BuildEnv` over `exampleOS` (context `/a/b` with its `Enginefile`, no
`.provignore`) in which the server answers with a terminal error record of
code 0 and message `build failed`. -/
def exampleBuildEnv : BuildEnv where
  sys := exampleOS
  IsURL _ := false
  Open _ := .error (.os .notExist "open: no such file or directory".toList)
  walkEnv := exampleWalkEnv
  tree := directory "b" (.cons (regularFile "Enginefile") .nil)
  TarWithOptions _ _ := .ok [1, 2, 3]
  EngineBuild _ _ := ("Sending build context".toList, .ok [4, 5, 6])
  DisplayJSONMessagesStream _ := ("step 1".toList, some (.jsonError 0 "build failed".toList))

/-- A `BuildEnv` like `exampleBuildEnv` in which the decoding of the response
fails on a malformed line: `DisplayJSONMessagesStream` returns an error that
is not a `*JSONError`. -/
def exampleBuildEnvMalformed : BuildEnv :=
  { exampleBuildEnv with
    DisplayJSONMessagesStream := fun _ =>
      ("step 1".toList,
        some (.errorf "invalid character 'x' looking for beginning of value" [])) }

/-- The options of `prov engine build /a/b` with no flag given. -/
def exampleOptions : buildOptions :=
  { context := "/a/b".toList, enginefileName := [], quiet := false, compress := true }

/-- The surroundings `exampleSys` in which `os.Create` fails for lack of
permission. -/
def exampleSysCreateFails : Sys :=
  { builder.exampleSys with
    Create := fun _ _ => some (.os .permission "open /tmp/ctx/Enginefile: permission denied".toList) }

/-! ### The flags of `prov engine build` -/

/-- A flag of `prov engine build` given on the command line, with its value:
`--file` (`-f`), `--quiet` (`-q`) and `--compress`. -/
inductive BuildFlag where
  | file (value : Str)
  | quiet (value : Bool)
  | compress (value : Bool)
  deriving DecidableEq, Repr

namespace engine

/-- What parsing one flag stores, through the variable the flag was defined
with: `flags.StringVarP(&options.enginefileName, "file", "f", ...)`,
`flags.BoolVarP(&options.compress, "quiet", "q", ...)`,
`flags.BoolVar(&options.compress, "compress", ...)`. -/
def setFlag (options : buildOptions) : BuildFlag → buildOptions
  | .file value => { options with enginefileName := value }
  | .quiet value => { options with compress := value }
  | .compress value => { options with compress := value }

/-- Go `NewBuildCommand` run on a command line: the options `runBuild` is
called with.  `options := buildOptions{}`; each flag definition stores its
default value in its variable (`""` for `file`, `false` for `quiet`, `true`
for `compress`); parsing stores the values given, in order; `RunE` sets
`options.context = args[0]`. -/
def NewBuildCommand (given : List BuildFlag) (arg : Str) : buildOptions :=
  let options : buildOptions :=
    { context := [], enginefileName := [], quiet := false, compress := false }
  let options := { options with enginefileName := [] }
  let options := { options with compress := false }
  let options := { options with compress := true }
  let options := given.foldl setFlag options
  { options with context := arg }

end engine

/-- A `BuildEnv` like `exampleBuildEnv` in which the build succeeds: the
server text is the engine id. -/
def exampleBuildEnvOk : BuildEnv :=
  { exampleBuildEnv with
    DisplayJSONMessagesStream := fun _ => ("engine-id\n".toList, none) }

/-- An operating system like `exampleOS` in which the file of the directory
`/a/b` is named `enginefile`. -/
def exampleOSLower : OS where
  getwd := .ok "/a".toList
  lstat p :=
    if p = "/a".toList ∨ p = "/a/b".toList ∨ p = "/".toList then .ok { isDir := true }
    else if p = "/a/b/enginefile".toList then .ok { isDir := false }
    else .error (.os .notExist ("lstat: no such file or directory".toList))
  evalSymlinks p :=
    if filepath.Clean p = "/a".toList ∨ filepath.Clean p = "/a/b".toList
        ∨ filepath.Clean p = "/".toList ∨ filepath.Clean p = "/a/b/enginefile".toList
    then .ok (filepath.Clean p)
    else .error (.os .notExist ("lstat: no such file or directory".toList))
  lookPathGit := none
  gitClone _ := .ok "/a/b".toList

/-! ### The client and its host -/

namespace strings

/-- Go `strings.SplitN(s, sep, 2)` for a separator that is not empty: `none`
when `sep` does not occur in `s` (the result is then the one piece `s`),
otherwise the text before and the text after its first occurrence. -/
def SplitN2 (s sep : Str) : Option (Str × Str) :=
  if sep.isPrefixOf s then some ([], s.drop sep.length)
  else
    match s with
    | [] => none
    | c :: rest => (SplitN2 rest sep).map (fun pieces => (c :: pieces.1, pieces.2))

end strings

/-- What the construction of a client takes from outside: the environment
variables (`os.Getenv`, `""` for a variable that is not set), the function
`url.Parse` (the `Host` and the `Path` of the parsed URL), and the constant
`api.DefaultVersion`, which is declared outside the files at hand. -/
structure ClientEnv where
  Getenv : String → Str
  urlParse : Str → Except GoError (Str × Str)
  apiDefaultVersion : Str

namespace client

/-- Go `client.DefaultProvidenceHost`. -/
def DefaultProvidenceHost : Str := "http://localhost".toList

/-- Go `client.DefaultVersion`. -/
def DefaultVersion : Str := "1.0".toList

/-- Go `client.Client`, without its `*http.Client`. -/
structure Client where
  scheme : Str
  host : Str
  proto : Str
  addr : Str
  basePath : Str
  version : Str
  customHTTPHeaders : List (Str × Str)
  deriving DecidableEq, Repr

/-- Go `client.ParseHost`: the protocol, the address and the base path. -/
def ParseHost (env : ClientEnv) (host : Str) : Except GoError (Str × Str × Str) :=
  match strings.SplitN2 host "://".toList with
  | none => .error (.errorf "unable to parse providence host `%s`" [host])
  | some (proto, addr) =>
    if proto == "tcp".toList || proto == "http".toList || proto == "https".toList then
      match env.urlParse (proto ++ "://".toList ++ addr) with
      | .error err => .error err
      | .ok (parsedHost, parsedPath) => .ok (proto, parsedHost, parsedPath)
    else .ok (proto, addr, [])

/-- Go `client.NewClient` (the `*http.Client` left out). -/
def NewClient (env : ClientEnv) (host version : Str) (httpHeaders : List (Str × Str)) :
    Except GoError Client :=
  match ParseHost env host with
  | .error err => .error err
  | .ok (proto, addr, basePath) =>
    .ok { scheme := "http".toList, host := host, proto := proto, addr := addr,
          basePath := basePath, version := version, customHTTPHeaders := httpHeaders }

/-- Go `client.NewEnvClient`. -/
def NewEnvClient (env : ClientEnv) : Except GoError Client :=
  let host := env.Getenv "PROVIDENCE_HOST"
  let host := if host.isEmpty then DefaultProvidenceHost else host
  let version := env.Getenv "PROVIDENCE_API_VERSION"
  let version := if version.isEmpty then DefaultVersion else version
  NewClient env host version []

end client

namespace command

/-- Go `command.UserAgent`. -/
def UserAgent : Str := "Providence-Client/".toList

/-- Go `command.getServerHost`. -/
def getServerHost (env : ClientEnv) (hosts : List Str) : Except GoError Str :=
  match hosts with
  | [] => .ok (env.Getenv "PROVIDENCE_HOST")
  | [host] => .ok host
  | _ => .error (.errorf "Please specify only one -H" [])

/-- Go `command.NewAPIClientFromFlags`, on the `Hosts` of the common options. -/
def NewAPIClientFromFlags (env : ClientEnv) (hosts : List Str) : Except GoError client.Client :=
  match getServerHost env hosts with
  | .error err => .error err
  | .ok host =>
    let customHeaders := [("User-Agent".toList, UserAgent)]
    let verStr := env.apiDefaultVersion
    let tmpStr := env.Getenv "PROVIDENCE_API_VERSION"
    let verStr := if !tmpStr.isEmpty then tmpStr else verStr
    client.NewClient env host verStr customHeaders

end command

/-- An environment in which no variable is set; `url.Parse` knows the URLs
`http://localhost` and `tcp://10.0.0.1:2375`. -/
def exampleClientEnv : ClientEnv where
  Getenv _ := []
  urlParse url :=
    if url = "http://localhost".toList then .ok ("localhost".toList, [])
    else if url = "tcp://10.0.0.1:2375".toList then .ok ("10.0.0.1:2375".toList, [])
    else .error (.errorf "parse %s: invalid URL" [url])
  apiDefaultVersion := "1.0".toList

/-! ## Theorems -/

/-! ### The fuel of the path loops is enough -/

theorem length_dropWhile_cons_le (p : Char → Bool) (c : Char) (tl : Str) (hc : p c = true) :
    ((c :: tl).dropWhile p).length ≤ tl.length := by
  simp only [List.dropWhile_cons, hc, if_true]
  exact (List.dropWhile_suffix p).length_le

/-- The loop of `Clean` gives the same result for every fuel that is at least
the length of the text still to read: it never stops for lack of fuel. -/
theorem cleanLoop_fuel (rooted : Bool) (n : Nat) :
    ∀ (m : Nat) (rest out : Str) (dd : Nat), rest.length ≤ n → rest.length ≤ m →
      filepath.cleanLoop rooted n rest out dd = filepath.cleanLoop rooted m rest out dd := by
  induction n with
  | zero =>
    intro m rest out dd hn _
    have : rest = [] := List.length_eq_zero.mp (Nat.le_zero.mp hn)
    subst this
    cases m <;> simp [filepath.cleanLoop]
  | succ n ih =>
    intro m rest out dd hn hm
    cases rest with
    | nil => cases m <;> simp [filepath.cleanLoop]
    | cons c tl =>
      cases m with
      | zero => simp at hm
      | succ m =>
        have hn2 : tl.length ≤ n := by simpa using hn
        have hm2 : tl.length ≤ m := by simpa using hm
        have hd : ∀ k, tl.length ≤ k → (tl.drop 1).length ≤ k := by
          intro k hk
          rw [List.length_drop]
          omega
        unfold filepath.cleanLoop
        by_cases hsep : filepath.IsPathSeparator c = true
        · simp only [hsep, if_true]
          exact ih m tl out dd hn2 hm2
        · have hp : (!filepath.IsPathSeparator c) = true := by simp [hsep]
          simp only [hsep, Bool.false_eq_true, if_false]
          split
          · exact ih m tl out dd hn2 hm2
          · split
            · split
              · exact ih m _ _ dd (hd n hn2) (hd m hm2)
              · split
                · exact ih m _ _ _ (hd n hn2) (hd m hm2)
                · exact ih m _ _ dd (hd n hn2) (hd m hm2)
            · exact ih m _ _ dd
                (le_trans (length_dropWhile_cons_le _ c tl hp) hn2)
                (le_trans (length_dropWhile_cons_le _ c tl hp) hm2)

/-- The loop of `Rel` gives the same result for every fuel larger than the
length of the base path still to compare. -/
theorem relLoop_fuel (n : Nat) :
    ∀ (m : Nat) (b t : Str), b.length < n → b.length < m →
      filepath.relLoop n b t = filepath.relLoop m b t := by
  induction n with
  | zero =>
    intro m b t hn _
    omega
  | succ n ih =>
    intro m b t hn hm
    cases m with
    | zero => omega
    | succ m =>
      unfold filepath.relLoop
      split
      · rfl
      · rename_i hne
        simp only
        split
        · rfl
        · have hb : b ≠ [] := by
            intro h
            simp [h] at hne
          have hlen : ((b.dropWhile (fun x => x != filepath.Separator)).drop 1).length
              < b.length := by
            rw [List.length_drop]
            have h1 := (List.dropWhile_suffix (l := b)
              (fun x => x != filepath.Separator)).length_le
            have h2 : 0 < b.length := List.length_pos.mpr hb
            omega
          exact ih m _ _ (by omega) (by omega)

/-! ### The line scanner and the loop of `ReadAll` -/

theorem splitLines_of_dropWhile_cons (data rest : Str) (x : Char)
    (hd : data.dropWhile (fun c => c != '\n') = x :: rest) :
    provignore.splitLines data
      = data.takeWhile (fun c => c != '\n') :: provignore.splitLines rest := by
  induction data with
  | nil => simp at hd
  | cons c tl ih =>
    by_cases hc : c = '\n'
    · subst hc
      simp at hd
      obtain ⟨-, rfl⟩ := hd
      simp [provignore.splitLines]
    · have h1 : (c != '\n') = true := by simpa using hc
      simp only [List.dropWhile_cons, h1, if_true] at hd
      simp only [List.takeWhile_cons, h1, if_true]
      have h2 : (c == '\n') = false := by simpa using hc
      simp [provignore.splitLines, h2, ih hd]

theorem splitLines_of_dropWhile_nil (data : Str) (hne : data ≠ [])
    (hd : data.dropWhile (fun c => c != '\n') = []) :
    provignore.splitLines data = [data.takeWhile (fun c => c != '\n')] := by
  induction data with
  | nil => exact absurd rfl hne
  | cons c tl ih =>
    by_cases hc : c = '\n'
    · subst hc
      simp at hd
    · have h1 : (c != '\n') = true := by simpa using hc
      simp only [List.dropWhile_cons, h1, if_true] at hd
      simp only [List.takeWhile_cons, h1, if_true]
      have h2 : (c == '\n') = false := by simpa using hc
      by_cases htl : tl = []
      · subst htl
        simp [provignore.splitLines, h2]
      · simp [provignore.splitLines, h2, ih htl hd]

/-- The scanner, given enough fuel, delivers the lines of the text, each with
its terminal carriage return dropped, when every line is shorter than
`MaxScanTokenSize` bytes; otherwise it ends with `ErrTooLong`. -/
theorem scan_eq (fuel : Nat) (data : Str) (hf : data.length < fuel) :
    (bufio.scan fuel data).2
        = (if (provignore.splitLines data).all (fun l => byteLen l < bufio.MaxScanTokenSize)
           then none else some bufio.ErrTooLong)
    ∧ ((provignore.splitLines data).all (fun l => byteLen l < bufio.MaxScanTokenSize) = true →
        (bufio.scan fuel data).1 = (provignore.splitLines data).map bufio.dropCR) := by
  induction fuel generalizing data with
  | zero => omega
  | succ n ih =>
    unfold bufio.scan
    by_cases hne : data = []
    · subst hne
      simp [provignore.splitLines]
    · have h0 : data.isEmpty = false := by simpa using hne
      simp only [h0, Bool.false_eq_true, if_false]
      by_cases hlong :
          byteLen (data.takeWhile (fun c => c != '\n')) ≥ bufio.MaxScanTokenSize
      · simp only [hlong, if_true]
        cases hd : data.dropWhile (fun c => c != '\n') with
        | nil =>
          rw [splitLines_of_dropWhile_nil data hne hd]
          simp [Nat.not_lt.mpr hlong]
        | cons x rest =>
          rw [splitLines_of_dropWhile_cons data rest x hd]
          simp [Nat.not_lt.mpr hlong]
      · simp only [hlong, if_false]
        have hshort : byteLen (data.takeWhile (fun c => c != '\n'))
            < bufio.MaxScanTokenSize := Nat.not_le.mp hlong
        cases hd : data.dropWhile (fun c => c != '\n') with
        | nil =>
          rw [splitLines_of_dropWhile_nil data hne hd]
          simp [hshort]
        | cons x rest =>
          rw [splitLines_of_dropWhile_cons data rest x hd]
          have hlen : rest.length < n := by
            have h1 := (List.dropWhile_suffix (l := data) (fun c => c != '\n')).length_le
            rw [hd] at h1
            simp at h1
            omega
          obtain ⟨ih1, ih2⟩ := ih rest hlen
          simp only [List.all_cons, hshort, decide_True, Bool.true_and, List.map_cons]
          refine ⟨ih1, fun hall => ?_⟩
          rw [ih2 hall]

theorem readLoop_succ (tokens : List Str) (n : Nat) (acc : List Str) :
    provignore.readLoop tokens (n + 1) acc
      = acc ++ tokens.filterMap provignore.linePattern := by
  induction tokens generalizing n acc with
  | nil => simp [provignore.readLoop]
  | cons t ts ih =>
    unfold provignore.readLoop
    simp only [Nat.add_eq_zero, one_ne_zero, and_false, beq_iff_eq, if_false]
    by_cases h1 : strings.HasPrefix t ['#'] = true
    · simp [h1, ih, provignore.linePattern]
    · by_cases h2 : (strings.TrimSpace t).isEmpty = true
      · simp [h1, h2, ih, provignore.linePattern]
      · simp [h1, h2, ih, provignore.linePattern]

theorem readLoop_zero (tokens : List Str) (acc : List Str) :
    provignore.readLoop tokens 0 acc
      = acc ++ (provignore.stripFirstBOM tokens).filterMap provignore.linePattern := by
  cases tokens with
  | nil => simp [provignore.readLoop, provignore.stripFirstBOM]
  | cons t ts =>
    unfold provignore.readLoop
    simp only [beq_self_eq_true, if_true, provignore.stripFirstBOM]
    by_cases h1 : strings.HasPrefix (bytes.TrimPrefix t provignore.utf8bom) ['#'] = true
    · simp [h1, readLoop_succ, provignore.linePattern]
    · by_cases h2 : (strings.TrimSpace (bytes.TrimPrefix t provignore.utf8bom)).isEmpty = true
      · simp [h1, h2, readLoop_succ, provignore.linePattern]
      · simp [h1, h2, readLoop_succ, provignore.linePattern]

/-- What `ReadAll` returns for a text: the pattern list of its lines when
every line is shorter than `MaxScanTokenSize` bytes, the scanner error
otherwise. -/
theorem ReadAll_eq (text : Str) :
    provignore.ReadAll (some text)
      = if (provignore.splitLines text).all (fun l => byteLen l < bufio.MaxScanTokenSize)
        then .ok (provignore.patternsOf text)
        else .error (.wrap "Error reading .provignore: %v" [] bufio.ErrTooLong) := by
  obtain ⟨h1, h2⟩ := scan_eq (text.length + 1) text (Nat.lt_succ_self _)
  unfold provignore.ReadAll bufio.NewScanner
  simp only [h1]
  by_cases hall :
      (provignore.splitLines text).all (fun l => byteLen l < bufio.MaxScanTokenSize) = true
  · simp only [hall, if_true]
    rw [h2 hall, readLoop_zero]
    simp [provignore.patternsOf, provignore.ignoreLines]
  · simp only [hall, Bool.false_eq_true, if_false]

/-- The guard of `getEnginefileRelPath`: a returned relative path never starts
with `..` followed by the separator. -/
theorem getEnginefileRelPath_guard (sys : OS) (dir file absDir rel : Str)
    (h : builder.getEnginefileRelPath sys dir file = .ok (absDir, rel)) :
    strings.HasPrefix rel "../".toList = false := by
  unfold builder.getEnginefileRelPath at h
  split at h
  · cases h
  split at h
  · cases h
  split at h
  · cases h
  split at h
  · cases h
  simp only [] at h
  split at h
  · cases h
  split at h
  · split at h <;> cases h
  split at h
  · cases h
  split at h
  · cases h
  · rename_i hpre
    simp only [Except.ok.injEq, Prod.mk.injEq] at h
    obtain ⟨-, rfl⟩ := h
    simpa [filepath.Separator] using hpre

/-- C1: with the context directory `/a/b` and the spec file `/a` (its parent
directory), `getEnginefileRelPath` returns without error and the returned
relative path is exactly `..`: the containment check lets the parent-directory
segment through.  `GetContextFromLocalDir` and `GetContextFromGitURL` (whose
clone is `/a/b`) return the same. -/
theorem C1_getEnginefileRelPath_returns_dotdot :
    builder.getEnginefileRelPath exampleOS "/a/b".toList "/a".toList
        = .ok ("/a/b".toList, "..".toList)
    ∧ builder.GetContextFromLocalDir exampleOS "/a/b".toList "/a".toList
        = .ok ("/a/b".toList, "..".toList)
    ∧ builder.GetContextFromGitURL exampleOS "git://host/repo.git".toList "/a".toList
        = .ok ("/a/b".toList, "..".toList) := by
  decide

theorem splitLines_replicate_a (n : Nat) :
    provignore.splitLines (List.replicate (n + 1) 'a') = [List.replicate (n + 1) 'a'] := by
  induction n with
  | zero => decide
  | succ k ih =>
    rw [List.replicate_succ, provignore.splitLines, ih]
    simp

theorem byteLen_replicate_a (n : Nat) : byteLen (List.replicate n 'a') = n := by
  have h : Char.utf8Size 'a' = 1 := by decide
  simp [byteLen, List.map_replicate, List.sum_replicate, h]

/-- A text made of one line of `bufio.MaxScanTokenSize` or more letters is
refused by the scanner. -/
theorem ReadAll_long_line (n : Nat) (hn : bufio.MaxScanTokenSize ≤ n + 1) :
    provignore.ReadAll (some (List.replicate (n + 1) 'a'))
      = .error (.wrap "Error reading .provignore: %v" [] bufio.ErrTooLong) := by
  rw [ReadAll_eq, splitLines_replicate_a n]
  simp only [List.all_cons, List.all_nil, byteLen_replicate_a, Bool.and_true]
  rw [if_neg]
  simpa using hn

/-- C2 (counterexample): for the text made of one line of `65536` letters `a`,
`ReadAll` returns the scanner error `token too long` and not the pattern of
that line. -/
theorem C2_counterexample_long_line :
    provignore.ReadAll (some (List.replicate 65536 'a'))
        = .error (.wrap "Error reading .provignore: %v" [] bufio.ErrTooLong)
    ∧ provignore.ReadAll (some (List.replicate 65536 'a'))
        ≠ .ok (provignore.patternsOf (List.replicate 65536 'a')) := by
  have h := ReadAll_long_line 65535 (by decide)
  exact ⟨h, fun h2 => by rw [h] at h2; cases h2⟩

/-- C2 (amended): for every text whose lines are all shorter than
`bufio.MaxScanTokenSize` (65536 bytes), `ReadAll` returns, in input order,
exactly one pattern for each line that is not a comment and is not empty after
trimming: the trimmed line, cleaned and with forward slashes.  When a line is
that long or longer it returns the scanner error instead.  The text
`"\n#comment\nbuild/\n"` gives the list `["build"]`. -/
theorem C2_ReadAll_patterns (text : Str) :
    provignore.ReadAll (some text)
        = (if (provignore.splitLines text).all (fun l => byteLen l < bufio.MaxScanTokenSize)
           then .ok (provignore.patternsOf text)
           else .error (.wrap "Error reading .provignore: %v" [] bufio.ErrTooLong))
    ∧ provignore.ReadAll (some "\n#comment\nbuild/\n".toList) = .ok ["build".toList] :=
  ⟨ReadAll_eq text, by decide⟩

/-- C3 (counterexample): the line ` #foo` (white space before the `#`) is
not a comment for `ReadAll`; it yields the pattern `#foo`, which begins with
`#`.  So does the line `./#foo`. -/
theorem C3_counterexample_hash_pattern :
    provignore.ReadAll (some " #foo".toList) = .ok ["#foo".toList]
    ∧ provignore.ReadAll (some "./#foo".toList) = .ok ["#foo".toList]
    ∧ strings.HasPrefix "#foo".toList ['#'] = true := by
  decide

/-- C3 (amended): every pattern that `ReadAll` returns is the trimmed and
cleaned form of a line that does not itself begin with `#` (for the first
line: after the byte order mark is stripped); a line that begins with `#`
yields no pattern. -/
theorem C3_patterns_from_non_comment_lines (text : Str) (ps : List Str)
    (h : provignore.ReadAll (some text) = .ok ps) (p : Str) (hp : p ∈ ps) :
    ∃ l ∈ provignore.ignoreLines text,
      strings.HasPrefix l ['#'] = false
      ∧ p = filepath.ToSlash (filepath.Clean (strings.TrimSpace l)) := by
  rw [ReadAll_eq] at h
  split at h
  · simp only [Except.ok.injEq] at h
    subst h
    unfold provignore.patternsOf at hp
    rw [List.mem_filterMap] at hp
    obtain ⟨l, hl, hlp⟩ := hp
    refine ⟨l, hl, ?_⟩
    unfold provignore.linePattern at hlp
    split at hlp
    · cases hlp
    · split at hlp
      · cases hlp
      · rename_i hh _
        simp only [Option.some.injEq] at hlp
        exact ⟨by simpa using hh, hlp.symm⟩
  · cases h

theorem C3_patterns_from_non_comment_lines_witness :
    ∃ l ∈ provignore.ignoreLines "#a\n #b".toList,
      strings.HasPrefix l ['#'] = false
      ∧ "#b".toList = filepath.ToSlash (filepath.Clean (strings.TrimSpace l)) :=
  C3_patterns_from_non_comment_lines "#a\n #b".toList ["#b".toList] (by decide)
    "#b".toList (by decide)

/-! ### Path cleaning keeps what no `..` element removes -/

theorem pathElems_ne_nil (l : Str) : filepath.pathElems l ≠ [] := by
  cases l with
  | nil => simp [filepath.pathElems]
  | cons c tl =>
    unfold filepath.pathElems
    split
    · simp
    · split <;> simp

theorem pathElems_cons_not_sep (c : Char) (tl : Str) (hc : (c == filepath.Separator) = false) :
    ∃ e es, filepath.pathElems tl = e :: es ∧ filepath.pathElems (c :: tl) = (c :: e) :: es := by
  cases h : filepath.pathElems tl with
  | nil => exact absurd h (pathElems_ne_nil tl)
  | cons e es =>
    refine ⟨e, es, rfl, ?_⟩
    rw [filepath.pathElems, if_neg (by simp [hc]), h]

theorem pathElems_dropWhile (l e : Str)
    (h : e ∈ filepath.pathElems (l.dropWhile (fun x => !filepath.IsPathSeparator x))) :
    e = [] ∨ e ∈ (filepath.pathElems l).tail := by
  induction l with
  | nil =>
    left
    simpa [filepath.pathElems] using h
  | cons c tl ih =>
    by_cases hc : (c == filepath.Separator) = true
    · have hp : (!filepath.IsPathSeparator c) = false := by simp [filepath.IsPathSeparator, hc]
      simp only [List.dropWhile_cons, hp, Bool.false_eq_true, if_false] at h
      rw [filepath.pathElems, if_pos hc] at h ⊢
      simpa using h
    · have hc2 : (c == filepath.Separator) = false := by simpa using hc
      have hp : (!filepath.IsPathSeparator c) = true := by simp [filepath.IsPathSeparator, hc2]
      simp only [List.dropWhile_cons, hp, if_true] at h
      obtain ⟨e0, es, h1, h2⟩ := pathElems_cons_not_sep c tl hc2
      rcases ih h with h3 | h3
      · exact Or.inl h3
      · right
        rw [h2]
        rw [h1] at h3
        simpa using h3

theorem cleanLoop_keeps (rooted : Bool) (x : Char) (fuel : Nat) :
    ∀ (rest out : Str) (dd : Nat), "..".toList ∉ filepath.pathElems rest →
      rest.length ≤ fuel →
      (x ∈ out → x ∈ filepath.cleanLoop rooted fuel rest out dd)
      ∧ (x ∈ rest → x ≠ '/' → x ≠ '.' → x ∈ filepath.cleanLoop rooted fuel rest out dd) := by
  induction fuel with
  | zero =>
    intro rest out dd _ hlen
    have : rest = [] := List.length_eq_zero.mp (Nat.le_zero.mp hlen)
    subst this
    simp [filepath.cleanLoop]
  | succ n ih =>
    intro rest out dd hdd hlen
    cases rest with
    | nil => simp [filepath.cleanLoop]
    | cons c tl =>
      have hlen2 : tl.length ≤ n := by simpa using hlen
      unfold filepath.cleanLoop
      by_cases hsep : filepath.IsPathSeparator c = true
      · -- empty path element
        simp only [hsep, if_true]
        have hc : (c == filepath.Separator) = true := hsep
        have hdd2 : "..".toList ∉ filepath.pathElems tl := by
          intro hmem
          apply hdd
          rw [filepath.pathElems, if_pos hc]
          exact List.mem_cons_of_mem _ hmem
        obtain ⟨h1, h2⟩ := ih tl out dd hdd2 hlen2
        refine ⟨h1, fun hx hx1 hx2 => h2 ?_ hx1 hx2⟩
        rcases List.mem_cons.mp hx with rfl | hx
        · exfalso
          apply hx1
          simpa [filepath.IsPathSeparator, filepath.Separator] using hsep
        · exact hx
      · have hc2 : (c == filepath.Separator) = false := by
          simpa [filepath.IsPathSeparator] using hsep
        obtain ⟨e0, es, he1, he2⟩ := pathElems_cons_not_sep c tl hc2
        simp only [hsep, Bool.false_eq_true, if_false]
        by_cases hdot : (c == '.' && (tl.isEmpty || (tl.head?.any filepath.IsPathSeparator))) = true
        · -- . element
          simp only [hdot, if_true]
          have he0 : e0 = [] := by
            simp only [Bool.and_eq_true, Bool.or_eq_true] at hdot
            rcases hdot.2 with h | h
            · have : tl = [] := by simpa using h
              subst this
              simp [filepath.pathElems] at he1
              exact he1.1
            · cases tl with
              | nil => simp at h
              | cons d tl2 =>
                simp only [List.head?_cons, Option.any_some] at h
                have hd : (d == filepath.Separator) = true := h
                rw [filepath.pathElems, if_pos hd] at he1
                simp at he1
                exact he1.1
          have hdd2 : "..".toList ∉ filepath.pathElems tl := by
            intro hmem
            rw [he1, he0] at hmem
            rcases List.mem_cons.mp hmem with h | h
            · simp at h
            · apply hdd
              rw [he2]
              exact List.mem_cons_of_mem _ h
          obtain ⟨h1, h2⟩ := ih tl out dd hdd2 hlen2
          refine ⟨h1, fun hx hx1 hx2 => h2 ?_ hx1 hx2⟩
          rcases List.mem_cons.mp hx with rfl | hx
          · exfalso
            apply hx2
            simp only [Bool.and_eq_true, beq_iff_eq] at hdot
            exact hdot.1
          · exact hx
        · simp only [hdot, Bool.false_eq_true, if_false]
          by_cases hdd3 : (c == '.' && tl.head? == some '.' &&
              ((tl.drop 1).isEmpty || ((tl.drop 1).head?.any filepath.IsPathSeparator))) = true
          · -- .. element: excluded by the hypothesis
            exfalso
            apply hdd
            simp only [Bool.and_eq_true, Bool.or_eq_true, beq_iff_eq] at hdd3
            obtain ⟨⟨hc, hhead⟩, hrest⟩ := hdd3
            subst hc
            cases tl with
            | nil => simp at hhead
            | cons d tl2 =>
              simp only [List.head?_cons, Option.some.injEq] at hhead
              subst hhead
              simp only [List.drop_succ_cons, List.drop_zero] at hrest
              rcases hrest with h | h
              · have : tl2 = [] := by simpa using h
                subst this
                decide
              · cases tl2 with
                | nil => simp at h
                | cons d2 tl3 =>
                  simp only [List.head?_cons, Option.any_some] at h
                  have hd : (d2 == filepath.Separator) = true := h
                  have hne : ('.' == filepath.Separator) = false := by decide
                  simp [filepath.pathElems, hd, hne]
          · -- real path element
            simp only [hdd3, Bool.false_eq_true, if_false]
            have hp : (!filepath.IsPathSeparator c) = true := by simp [hsep]
            have hdd2 : "..".toList ∉ filepath.pathElems
                ((c :: tl).dropWhile (fun x => !filepath.IsPathSeparator x)) := by
              intro hmem
              rcases pathElems_dropWhile _ _ hmem with h | h
              · simp at h
              · exact hdd (List.mem_of_mem_tail h)
            have hlen3 : ((c :: tl).dropWhile (fun x => !filepath.IsPathSeparator x)).length
                ≤ n := by
              simp only [List.dropWhile_cons, hp, if_true]
              exact le_trans (List.dropWhile_suffix _).length_le hlen2
            obtain ⟨h1, h2⟩ := ih _
              ((if (rooted && out.length != 1) || (!rooted && out.length != 0)
                then out ++ [filepath.Separator] else out)
                ++ (c :: tl).takeWhile (fun x => !filepath.IsPathSeparator x)) dd hdd2 hlen3
            refine ⟨fun hx => h1 ?_, fun hx hx1 hx2 => ?_⟩
            · apply List.mem_append_left
              split
              · exact List.mem_append_left _ hx
              · exact hx
            · rw [← List.takeWhile_append_dropWhile (fun x => !filepath.IsPathSeparator x)
                (c :: tl)] at hx
              rcases List.mem_append.mp hx with h | h
              · exact h1 (List.mem_append_right _ h)
              · exact h2 h hx1 hx2

theorem Clean_keeps (path : Str) (x : Char) (hx : x ∈ path) (h1 : x ≠ '/') (h2 : x ≠ '.')
    (hdd : "..".toList ∉ filepath.pathElems path) : x ∈ filepath.Clean path := by
  cases path with
  | nil => simp at hx
  | cons c tl =>
    unfold filepath.Clean
    simp only [List.isEmpty_cons, Bool.false_eq_true, if_false, List.head?_cons,
      Option.any_some, List.drop_succ_cons, List.drop_zero]
    by_cases hsep : filepath.IsPathSeparator c = true
    · simp only [hsep, if_true]
      have hc : (c == filepath.Separator) = true := hsep
      have hdd2 : "..".toList ∉ filepath.pathElems tl := by
        intro hmem
        apply hdd
        rw [filepath.pathElems, if_pos hc]
        exact List.mem_cons_of_mem _ hmem
      have hxtl : x ∈ tl := by
        rcases List.mem_cons.mp hx with rfl | h
        · exfalso
          apply h1
          simpa [filepath.IsPathSeparator, filepath.Separator] using hsep
        · exact h
      have hk := (cleanLoop_keeps true x (c :: tl).length tl [filepath.Separator] 1 hdd2
        (by simp)).2 hxtl h1 h2
      split
      · rename_i hempty
        rw [List.isEmpty_iff] at hempty
        rw [hempty] at hk
        simp at hk
      · exact hk
    · simp only [hsep, Bool.false_eq_true, if_false]
      have hk := (cleanLoop_keeps false x (c :: tl).length (c :: tl) [] 0 hdd
        (le_refl _)).2 hx h1 h2
      split
      · rename_i hempty
        rw [List.isEmpty_iff] at hempty
        rw [hempty] at hk
        simp at hk
      · exact hk

theorem mem_dropWhile_of_false (p : Char → Bool) (x : Char) (l : Str) (hx : x ∈ l)
    (hp : p x = false) : x ∈ l.dropWhile p := by
  induction l with
  | nil => simp at hx
  | cons c tl ih =>
    rw [List.dropWhile_cons]
    split
    · rcases List.mem_cons.mp hx with rfl | h
      · rename_i hc
        rw [hp] at hc
        cases hc
      · exact ih h
    · exact hx

theorem TrimSpace_keeps (l : Str) (x : Char) (hx : x ∈ l) (hs : unicode.IsSpace x = false) :
    x ∈ strings.TrimSpace l := by
  unfold strings.TrimSpace
  rw [List.mem_reverse]
  apply mem_dropWhile_of_false _ _ _ _ hs
  rw [List.mem_reverse]
  exact mem_dropWhile_of_false _ _ _ hx hs

/-- A byte order mark in a line is still in the pattern of the line when the
trimmed line has no `..` element. -/
theorem linePattern_keeps_bom (l p : Str) (hx : Char.ofNat 0xFEFF ∈ l)
    (hp : provignore.linePattern l = some p)
    (hdd : "..".toList ∉ filepath.pathElems (strings.TrimSpace l)) :
    Char.ofNat 0xFEFF ∈ p := by
  unfold provignore.linePattern at hp
  split at hp
  · cases hp
  · split at hp
    · cases hp
    · simp only [Option.some.injEq] at hp
      subst hp
      unfold filepath.ToSlash
      exact Clean_keeps _ _ (TrimSpace_keeps l _ hx (by decide)) (by decide) (by decide) hdd

/-! ### The byte order mark -/

/-- The byte order mark U+FEFF is the three bytes `EF BB BF` in UTF-8. -/
theorem utf8bom_bytes :
    provignore.utf8bom.flatMap String.utf8EncodeChar = [0xEF, 0xBB, 0xBF]
    ∧ byteLen provignore.utf8bom = 3 := by
  decide

theorem splitLines_cons_eq (s : Str) (hne : s ≠ []) :
    ∃ ls, provignore.splitLines s = s.takeWhile (fun c => c != '\n') :: ls := by
  cases hd : s.dropWhile (fun c => c != '\n') with
  | nil => exact ⟨[], splitLines_of_dropWhile_nil s hne hd⟩
  | cons x rest => exact ⟨_, splitLines_of_dropWhile_cons s rest x hd⟩

theorem dropCR_bom_cons (l : Str) :
    bufio.dropCR (Char.ofNat 0xFEFF :: l) = Char.ofNat 0xFEFF :: bufio.dropCR l := by
  cases l with
  | nil => decide
  | cons c tl =>
    unfold bufio.dropCR
    rw [List.getLast?_cons_cons]
    split
    · simp
    · rfl

theorem dropCR_head (l : Str) (x : Char) (h : (bufio.dropCR l).head? = some x) :
    l.head? = some x := by
  unfold bufio.dropCR at h
  split at h
  · cases l with
    | nil => simp at h
    | cons c tl =>
      cases tl with
      | nil => simp at h
      | cons d tl2 => simpa using h
  · exact h

theorem takeWhile_head (p : Char → Bool) (l : Str) (x : Char)
    (h : (l.takeWhile p).head? = some x) : l.head? = some x := by
  cases l with
  | nil => simp at h
  | cons c tl =>
    rw [List.takeWhile_cons] at h
    split at h
    · simpa using h
    · simp at h

/-- A byte order mark put in front of a text that has none, and whose first
line leaves room for it, does not change what `ReadAll` returns. -/
theorem ReadAll_bom (s : Str) (hb : strings.HasPrefix s provignore.utf8bom = false)
    (hlen : byteLen (s.takeWhile (fun c => c != '\n')) + 3 < bufio.MaxScanTokenSize) :
    provignore.ReadAll (some (provignore.utf8bom ++ s)) = provignore.ReadAll (some s) := by
  cases s with
  | nil => decide
  | cons c tl =>
    obtain ⟨ls, hls⟩ := splitLines_cons_eq (c :: tl) (by simp)
    have hbom : ((Char.ofNat 0xFEFF) == '\n') = false := by decide
    have hsplit : provignore.splitLines (provignore.utf8bom ++ (c :: tl))
        = (Char.ofNat 0xFEFF :: (c :: tl).takeWhile (fun c => c != '\n')) :: ls := by
      show provignore.splitLines (Char.ofNat 0xFEFF :: (c :: tl)) = _
      rw [provignore.splitLines, if_neg (by simp [hbom]), hls]
    have hsize : Char.utf8Size (Char.ofNat 0xFEFF) = 3 := by decide
    have hblen : byteLen (Char.ofNat 0xFEFF :: (c :: tl).takeWhile (fun c => c != '\n'))
        = 3 + byteLen ((c :: tl).takeWhile (fun c => c != '\n')) := by
      simp [byteLen, hsize]
    have hnohead : (bufio.dropCR ((c :: tl).takeWhile (fun c => c != '\n'))).head?
        ≠ some (Char.ofNat 0xFEFF) := by
      intro h
      have h2 := takeWhile_head _ _ _ (dropCR_head _ _ h)
      simp only [List.head?_cons, Option.some.injEq] at h2
      subst h2
      simp [strings.HasPrefix, provignore.utf8bom] at hb
    have htrim : bytes.TrimPrefix (bufio.dropCR ((c :: tl).takeWhile (fun c => c != '\n')))
        provignore.utf8bom = bufio.dropCR ((c :: tl).takeWhile (fun c => c != '\n')) := by
      unfold bytes.TrimPrefix
      rw [if_neg]
      intro hpre
      apply hnohead
      cases hd : bufio.dropCR ((c :: tl).takeWhile (fun c => c != '\n')) with
      | nil => rw [hd] at hpre; simp [strings.HasPrefix, provignore.utf8bom] at hpre
      | cons d tl2 =>
        rw [hd] at hpre
        simp [strings.HasPrefix, provignore.utf8bom] at hpre
        subst hpre
        simp
    have htrim2 : bytes.TrimPrefix
        (Char.ofNat 0xFEFF :: bufio.dropCR ((c :: tl).takeWhile (fun c => c != '\n')))
        provignore.utf8bom = bufio.dropCR ((c :: tl).takeWhile (fun c => c != '\n')) := by
      simp [bytes.TrimPrefix, strings.HasPrefix, provignore.utf8bom]
    have h1 : byteLen ((c :: tl).takeWhile (fun c => c != '\n')) < bufio.MaxScanTokenSize := by
      omega
    have h2 : 3 + byteLen ((c :: tl).takeWhile (fun c => c != '\n'))
        < bufio.MaxScanTokenSize := by omega
    rw [ReadAll_eq, ReadAll_eq]
    unfold provignore.patternsOf provignore.ignoreLines
    rw [hsplit, hls]
    simp only [List.all_cons, hblen, h1, h2, decide_True, Bool.true_and,
      List.map_cons, dropCR_bom_cons, provignore.stripFirstBOM, htrim, htrim2]

theorem stripFirstBOM_get (ls : List Str) (k : Nat) (l : Str)
    (h : ls.get? k = some l)
    (hb : if k = 0 then Char.ofNat 0xFEFF ∈ l.drop 1 else Char.ofNat 0xFEFF ∈ l) :
    ∃ l2, (provignore.stripFirstBOM ls).get? k = some l2 ∧ Char.ofNat 0xFEFF ∈ l2 := by
  cases ls with
  | nil => simp at h
  | cons l0 rest =>
    cases k with
    | zero =>
      simp only [List.get?_cons_zero, Option.some.injEq] at h
      subst h
      simp only [if_true] at hb
      refine ⟨bytes.TrimPrefix l0 provignore.utf8bom, by simp [provignore.stripFirstBOM], ?_⟩
      unfold bytes.TrimPrefix
      split
      · exact hb
      · exact List.mem_of_mem_drop hb
    | succ k2 =>
      simp only [List.get?_cons_succ] at h
      simp only [Nat.add_eq_zero, one_ne_zero, and_false, if_false] at hb
      exact ⟨l, by simpa [provignore.stripFirstBOM] using h, hb⟩

theorem splitLines_bom_replicate_a (n : Nat) :
    provignore.splitLines (provignore.utf8bom ++ List.replicate (n + 1) 'a')
      = [Char.ofNat 0xFEFF :: List.replicate (n + 1) 'a'] := by
  show provignore.splitLines (Char.ofNat 0xFEFF :: List.replicate (n + 1) 'a') = _
  have hbom : ((Char.ofNat 0xFEFF) == '\n') = false := by decide
  rw [provignore.splitLines, if_neg (by simp [hbom]), splitLines_replicate_a]

/-- C4 (counterexample): a byte order mark at the start of the second line is
absent from the pattern of that line when path cleaning removes the element
that holds it (the line `U+FEFF/..` gives the pattern `.`).  And a byte order
mark in front of a text whose only line has `65535` bytes makes `ReadAll`
fail where it succeeds without the mark. -/
theorem C4_counterexample_bom :
    (provignore.ReadAll (some ("x\n".toList ++ provignore.utf8bom ++ "/..".toList))
        = .ok ["x".toList, ".".toList]
      ∧ Char.ofNat 0xFEFF ∉ ".".toList)
    ∧ (strings.HasPrefix (List.replicate 65535 'a') provignore.utf8bom = false
      ∧ provignore.ReadAll (some (provignore.utf8bom ++ List.replicate 65535 'a'))
          ≠ provignore.ReadAll (some (List.replicate 65535 'a'))) := by
  refine ⟨by decide, ?_, ?_⟩
  · show strings.HasPrefix (List.replicate (65534 + 1) 'a') provignore.utf8bom = false
    rw [List.replicate_succ]
    decide
  · show provignore.ReadAll (some (provignore.utf8bom ++ List.replicate (65534 + 1) 'a'))
      ≠ provignore.ReadAll (some (List.replicate (65534 + 1) 'a'))
    have hsize : Char.utf8Size (Char.ofNat 0xFEFF) = 3 := by decide
    have hlen : ∀ l : Str, byteLen (Char.ofNat 0xFEFF :: l) = 3 + byteLen l := by
      intro l
      simp [byteLen, hsize]
    rw [ReadAll_eq, ReadAll_eq, splitLines_bom_replicate_a, splitLines_replicate_a]
    simp only [List.all_cons, List.all_nil, Bool.and_true, hlen, byteLen_replicate_a]
    rw [if_neg (by decide), if_pos (by decide)]
    intro h
    cases h

/-- C4 (amended): `ReadAll` strips the byte order mark only at the very start
of the text.  For every text `s` that does not itself start with the mark and
whose first line, with the three bytes of the mark, stays shorter than
`bufio.MaxScanTokenSize`, `ReadAll(BOM ++ s) = ReadAll(s)`.  A mark at the
start of a later line or inside a line is not stripped: it stays in the line
that is trimmed and cleaned, and it is in the pattern of that line whenever the
trimmed line has no `..` path element. -/
theorem C4_bom_stripped_only_at_start (s : Str) :
    (strings.HasPrefix s provignore.utf8bom = false →
      byteLen (s.takeWhile (fun c => c != '\n')) + 3 < bufio.MaxScanTokenSize →
      provignore.ReadAll (some (provignore.utf8bom ++ s)) = provignore.ReadAll (some s))
    ∧ (∀ ps, provignore.ReadAll (some s) = .ok ps →
        ps = (provignore.ignoreLines s).filterMap provignore.linePattern
        ∧ ∀ (k : Nat) (l : Str),
            ((provignore.splitLines s).map bufio.dropCR).get? k = some l →
            (if k = 0 then Char.ofNat 0xFEFF ∈ l.drop 1 else Char.ofNat 0xFEFF ∈ l) →
            ∃ l2, (provignore.ignoreLines s).get? k = some l2 ∧ Char.ofNat 0xFEFF ∈ l2
              ∧ ∀ p, provignore.linePattern l2 = some p →
                  "..".toList ∉ filepath.pathElems (strings.TrimSpace l2) →
                  Char.ofNat 0xFEFF ∈ p) := by
  refine ⟨ReadAll_bom s, fun ps hps => ⟨?_, fun k l hk hb => ?_⟩⟩
  · rw [ReadAll_eq] at hps
    split at hps
    · simp only [Except.ok.injEq] at hps
      exact hps.symm
    · cases hps
  · obtain ⟨l2, h1, h2⟩ := stripFirstBOM_get _ k l hk hb
    exact ⟨l2, h1, h2, fun p hp hdd => linePattern_keeps_bom l2 p h2 hp hdd⟩

theorem C4_bom_stripped_only_at_start_witness :
    provignore.ReadAll (some (provignore.utf8bom ++ "build/\n".toList))
        = provignore.ReadAll (some "build/\n".toList)
    ∧ ∃ l2, (provignore.ignoreLines ("x\n".toList ++ provignore.utf8bom ++ "y".toList)).get? 1
          = some l2 ∧ Char.ofNat 0xFEFF ∈ l2
        ∧ ∀ p, provignore.linePattern l2 = some p →
            "..".toList ∉ filepath.pathElems (strings.TrimSpace l2) → Char.ofNat 0xFEFF ∈ p :=
  ⟨(C4_bom_stripped_only_at_start "build/\n".toList).1 (by decide) (by decide),
   ((C4_bom_stripped_only_at_start ("x\n".toList ++ provignore.utf8bom ++ "y".toList)).2
      ["x".toList, provignore.utf8bom ++ "y".toList] (by decide)).2 1
      (provignore.utf8bom ++ "y".toList) (by decide) (by decide)⟩

/-! ### `GetContextFromReader` -/

/-- C5 (counterexample): for a stream that starts with the gzip signature and
the spec-file argument `Custom`, `GetContextFromReader` returns the name
`Custom`, not `Enginefile`. -/
theorem C5_counterexample_name :
    (builder.GetContextFromReader builder.exampleSys ⟨[]⟩
        { data := [0x1F, 0x8B, 0x08, 0x00] } "Custom".toList).1
      = .ok ({ data := [0x1F, 0x8B, 0x08, 0x00], readErr := none, closer := .reader none },
          "Custom".toList)
    ∧ "Custom".toList ≠ builder.DefaultEnginefileName := by
  decide

/-- C5 (amended): for every stream whose peeked header is recognised as an
archive, and for every spec-file argument, `GetContextFromReader` returns
without error a stream that yields exactly the bytes of the input stream and
closes the input stream when closed, returns the spec-file argument unchanged,
and creates no temporary directory. -/
theorem C5_archive_stream_returned (sys : Sys) (w : World) (r : Reader) (enginefileName : Str)
    (hpeek : (bufio.Peek r sys.HeaderSize).2 = none
      ∨ (bufio.Peek r sys.HeaderSize).2 = some bufio.EOF)
    (harch : sys.IsArchive (bufio.Peek r sys.HeaderSize).1 = true) :
    builder.GetContextFromReader sys w r enginefileName
      = (.ok ({ data := r.data, readErr := r.readErr, closer := .reader r.closeErr },
          enginefileName), w) := by
  unfold builder.GetContextFromReader
  rcases hpeek with h | h
  · simp [h, harch]
  · simp [h, harch]

theorem C5_archive_stream_returned_witness :
    builder.GetContextFromReader builder.exampleSys ⟨[]⟩
        { data := [0x1F, 0x8B, 0x08, 0x00] } "Custom".toList
      = (.ok ({ data := [0x1F, 0x8B, 0x08, 0x00], readErr := none, closer := .reader none },
          "Custom".toList), ⟨[]⟩) :=
  C5_archive_stream_returned builder.exampleSys ⟨[]⟩ { data := [0x1F, 0x8B, 0x08, 0x00] }
    "Custom".toList (by decide) (by decide)

theorem Peek_ok_or_EOF (r : Reader) (n : Nat) (hn : n ≤ bufio.defaultBufSize)
    (hread : r.readErr = none) :
    (bufio.Peek r n).2 = none ∨ (bufio.Peek r n).2 = some bufio.EOF := by
  unfold bufio.Peek
  rw [if_neg (Nat.not_lt.mpr hn)]
  split
  · right
    simp [hread]
  · left
    rfl

/-- C6: for every stream whose header is not an archive signature (the empty
stream and short streams included), when no file operation fails,
`GetContextFromReader` packages the new temporary directory, which then holds
exactly one file, named `DefaultEnginefileName`, whose contents are the whole
input stream, and returns `DefaultEnginefileName` as the spec-file name. -/
theorem C6_plain_stream_packaged (sys : Sys) (w : World) (r : Reader) (enginefileName d : Str)
    (t : List Byte) (ce : Option GoError)
    (hsize : sys.HeaderSize ≤ bufio.defaultBufSize)
    (hread : r.readErr = none) (hclose : r.closeErr = none)
    (harch : sys.IsArchive (bufio.Peek r sys.HeaderSize).1 = false)
    (htmp : sys.TempDir = .ok d)
    (hcreate : sys.Create d builder.DefaultEnginefileName = none)
    (hwrite : sys.writeFault = none) (hfclose : sys.fileClose = none)
    (htar : sys.Tar d [(builder.DefaultEnginefileName, r.data)] = .ok (t, ce)) :
    ∃ w2, builder.GetContextFromReader sys w r enginefileName
        = (.ok ({ data := t, readErr := none, closer := .tarThenRemoveAll ce d },
            builder.DefaultEnginefileName), w2)
      ∧ os.ReadDir w2 d = some [(builder.DefaultEnginefileName, r.data)] := by
  have hdir : os.ReadDir
      (os.writeFile { tmpDirs := (d, []) :: w.tmpDirs } d builder.DefaultEnginefileName r.data) d
      = some [(builder.DefaultEnginefileName, r.data)] := by
    simp [os.ReadDir, os.writeFile]
  refine ⟨os.writeFile { tmpDirs := (d, []) :: w.tmpDirs } d builder.DefaultEnginefileName
    r.data, ?_, hdir⟩
  unfold builder.GetContextFromReader
  have hfalse : (((bufio.Peek r sys.HeaderSize).2).isSome
      && (bufio.Peek r sys.HeaderSize).2 != some bufio.EOF) = false := by
    rcases Peek_ok_or_EOF r sys.HeaderSize hsize hread with h | h <;> simp [h]
  simp only [hfalse, Bool.false_eq_true, if_false, harch, htmp, hcreate, hwrite, hread,
    hfclose, hclose, Option.filter, hdir, Option.getD_some, htar]

theorem C6_plain_stream_packaged_witness :
    (∃ w2, builder.GetContextFromReader builder.exampleSys ⟨[]⟩ { data := [70, 82, 79, 77, 10] }
        "Custom".toList
        = (.ok ({ data := [70, 82, 79, 77, 10], readErr := none,
                  closer := .tarThenRemoveAll none "/tmp/ctx".toList },
            builder.DefaultEnginefileName), w2)
      ∧ os.ReadDir w2 "/tmp/ctx".toList
          = some [(builder.DefaultEnginefileName, [70, 82, 79, 77, 10])])
    ∧ (∃ w2, builder.GetContextFromReader builder.exampleSys ⟨[]⟩ { data := [] } []
        = (.ok ({ data := [], readErr := none,
                  closer := .tarThenRemoveAll none "/tmp/ctx".toList },
            builder.DefaultEnginefileName), w2)
      ∧ os.ReadDir w2 "/tmp/ctx".toList = some [(builder.DefaultEnginefileName, [])]) :=
  ⟨C6_plain_stream_packaged builder.exampleSys ⟨[]⟩ { data := [70, 82, 79, 77, 10] }
      "Custom".toList "/tmp/ctx".toList [70, 82, 79, 77, 10] none
      (by decide) rfl rfl (by decide) rfl rfl rfl rfl (by decide),
   C6_plain_stream_packaged builder.exampleSys ⟨[]⟩ { data := [] }
      [] "/tmp/ctx".toList [] none
      (by decide) rfl rfl (by decide) rfl rfl rfl rfl (by decide)⟩

/-! ### The validation walk -/

theorem StopsAtDenied_of_none (ev : List Event) (r : Option GoError)
    (h : ∀ x ∈ ev, x.isDeniedOpen = false) : StopsAtDenied (r, ev) :=
  Or.inl h

theorem StopsAtDenied_append (ev1 : List Event) (r : Option GoError × List Event)
    (h1 : ∀ x ∈ ev1, x.isDeniedOpen = false) (h2 : StopsAtDenied r) :
    StopsAtDenied (r.1, ev1 ++ r.2) := by
  rcases h2 with h2 | ⟨init, p, e, h3, h4, h5, h6⟩
  · left
    intro x hx
    rcases List.mem_append.mp hx with h | h
    · exact h1 x h
    · exact h2 x h
  · right
    refine ⟨ev1 ++ init, p, e, ?_, h4, ?_, h6⟩
    · simp [h3]
    · intro x hx
      rcases List.mem_append.mp hx with h | h
      · exact h1 x h
      · exact h5 x h

theorem noDenied_of_StopsAtDenied (r : Option GoError) (ev : List Event)
    (h : StopsAtDenied (r, ev)) (hr : ∀ p, r ≠ some (noPermissionError p)) :
    ∀ x ∈ ev, x.isDeniedOpen = false := by
  rcases h with h | ⟨init, p, e, _, _, _, h6⟩
  · exact h
  · exact absurd h6 (hr p)

theorem validateWalkFn_stops (env : WalkEnv) (contextRoot : Str) (excludes : List Str)
    (filePath : Str) (f : Option FileInfo) (openErr err : Option GoError) :
    StopsAtDenied (builder.validateWalkFn env contextRoot excludes filePath f openErr err) := by
  unfold builder.validateWalkFn
  split
  · split
    · exact Or.inl (by simp)
    · split <;> exact Or.inl (by simp)
  · split
    · exact Or.inl (by simp)
    · split
      · exact Or.inl (by simp)
      · split <;> exact Or.inl (by simp)
      · split
        · exact Or.inl (by simp [Event.isDeniedOpen])
        · split
          · cases openErr with
            | none => exact Or.inl (by simp [Event.isDeniedOpen])
            | some e =>
              by_cases hperm : e.IsPermission = true
              · simp only [hperm, if_true]
                exact Or.inr ⟨[.checked filePath], filePath, e, rfl, hperm,
                  by simp [Event.isDeniedOpen], rfl⟩
              · simp only [hperm, Bool.false_eq_true, if_false]
                exact Or.inl (by simpa [Event.isDeniedOpen] using hperm)
          · exact Or.inl (by simp [Event.isDeniedOpen])

theorem noPermissionError_ne_SkipDir (p : Str) : GoError.SkipDir ≠ noPermissionError p := by
  intro h
  cases h

mutual
theorem walk_stops (env : WalkEnv) (contextRoot : Str) (excludes : List Str) (path : Str)
    (info : FileInfo) :
    ∀ node : FsNode, StopsAtDenied (builder.walk env contextRoot excludes path info node)
  | .mk name lstat openErr readDirErr children => by
    have hfn := validateWalkFn_stops env contextRoot excludes path (some info)
      (openErr.map PathError.toError) none
    unfold builder.walk
    cases hres : builder.validateWalkFn env contextRoot excludes path (some info)
      (openErr.map PathError.toError) none with
    | mk r ev =>
      rw [hres] at hfn
      cases r with
      | some err =>
        simp only
        split
        · rename_i hskip
          simp only [Bool.and_eq_true, beq_iff_eq] at hskip
          rw [hskip.2] at hfn
          exact Or.inl (noDenied_of_StopsAtDenied _ _ hfn
            (fun p h => noPermissionError_ne_SkipDir p (Option.some.inj h)))
        · exact hfn
      | none =>
        have hno := noDenied_of_StopsAtDenied _ _ hfn (fun p h => by cases h)
        simp only
        split
        · exact Or.inl hno
        · cases readDirErr with
          | some e =>
            exact StopsAtDenied_append ev _ hno
              (validateWalkFn_stops env contextRoot excludes path (some info)
                (openErr.map PathError.toError) (some e.toError))
          | none =>
            exact StopsAtDenied_append ev _ hno
              (walkNames_stops env contextRoot excludes path children)
theorem walkNames_stops (env : WalkEnv) (contextRoot : Str) (excludes : List Str)
    (path : Str) :
    ∀ forest : FsForest, StopsAtDenied (builder.walkNames env contextRoot excludes path forest)
  | .nil => by
    unfold builder.walkNames
    exact Or.inl (by simp)
  | .cons (.mk name lstat openErr readDirErr children) rest => by
    have hrest := walkNames_stops env contextRoot excludes path rest
    unfold builder.walkNames
    cases lstat with
    | error e =>
      have hfn := validateWalkFn_stops env contextRoot excludes (filepath.Join path name) none
        (openErr.map PathError.toError) (some e.toError)
      simp only
      cases hres : builder.validateWalkFn env contextRoot excludes (filepath.Join path name)
        none (openErr.map PathError.toError) (some e.toError) with
      | mk r ev =>
        rw [hres] at hfn
        cases r with
        | some err =>
          simp only
          split
          · exact hfn
          · rename_i hskip
            simp only [bne_iff_ne, ne_eq, not_not] at hskip
            rw [hskip] at hfn
            exact StopsAtDenied_append ev _ (noDenied_of_StopsAtDenied _ _ hfn
              (fun p h => noPermissionError_ne_SkipDir p (Option.some.inj h))) hrest
        | none =>
          exact StopsAtDenied_append ev _
            (noDenied_of_StopsAtDenied _ _ hfn (fun p h => by cases h)) hrest
    | ok fileInfo =>
      have hw := walk_stops env contextRoot excludes (filepath.Join path name) fileInfo
        (.mk name (.ok fileInfo) openErr readDirErr children)
      simp only
      cases hres : builder.walk env contextRoot excludes (filepath.Join path name) fileInfo
        (.mk name (.ok fileInfo) openErr readDirErr children) with
      | mk r ev =>
        rw [hres] at hw
        cases r with
        | some err =>
          simp only
          split
          · exact hw
          · rename_i hskip
            simp only [Bool.or_eq_true, Bool.not_eq_true', bne_iff_ne, ne_eq, not_or,
              Bool.not_eq_false, not_not] at hskip
            rw [hskip.2] at hw
            exact StopsAtDenied_append ev _ (noDenied_of_StopsAtDenied _ _ hw
              (fun p h => noPermissionError_ne_SkipDir p (Option.some.inj h))) hrest
        | none =>
          exact StopsAtDenied_append ev _
            (noDenied_of_StopsAtDenied _ _ hw (fun p h => by cases h)) hrest
end

/-- The validation walk stops at a denied open. -/
theorem ValidateContextDirectory_stops (env : WalkEnv) (tree : FsNode) (srcPath : Str)
    (excludes : List Str) :
    StopsAtDenied (builder.ValidateContextDirectory env tree srcPath excludes) := by
  unfold builder.ValidateContextDirectory
  split
  · exact Or.inl (by simp)
  · cases tree with
    | mk name lstat openErr readDirErr children =>
      unfold builder.Walk
      cases lstat with
      | error e => exact validateWalkFn_stops _ _ _ _ _ _ _
      | ok info => exact walk_stops _ _ _ _ _ _

/-- A denied open is the last thing the validation walk does, and the walk
returns the `no permission` error for its path. -/
theorem ValidateContextDirectory_denied_open_last (env : WalkEnv) (tree : FsNode)
    (srcPath : Str) (excludes : List Str) (path : Str) (e : GoError)
    (hopen : Event.opened path (some e)
      ∈ (builder.ValidateContextDirectory env tree srcPath excludes).2)
    (hperm : e.IsPermission = true) :
    (builder.ValidateContextDirectory env tree srcPath excludes).1
        = some (.errorf "no permission to read from '%s'" [path])
    ∧ ∃ init, (builder.ValidateContextDirectory env tree srcPath excludes).2
        = init ++ [Event.opened path (some e)] := by
  rcases ValidateContextDirectory_stops env tree srcPath excludes with h | ⟨init, p, e2, h1, _, h3, h4⟩
  · have := h _ hopen
    simp [Event.isDeniedOpen, hperm] at this
  · rw [h1] at hopen
    rcases List.mem_append.mp hopen with h | h
    · have := h3 _ h
      simp [Event.isDeniedOpen, hperm] at this
    · simp only [List.mem_singleton, Event.opened.injEq, Option.some.injEq] at h
      obtain ⟨rfl, rfl⟩ := h
      exact ⟨h4, init, h1⟩

/-- C8: in the context `/ctx` the entry `sock` fails to open with an error
that is neither permission-denied nor not-found; `ValidateContextDirectory`
returns no error and goes on to open the next entry `z`. -/
theorem C8_other_open_error_ignored :
    builder.ValidateContextDirectory exampleWalkEnv exampleTree "/ctx".toList []
      = (none,
         [.checked "/ctx".toList,
          .checked "/ctx/a".toList, .opened "/ctx/a".toList none,
          .checked "/ctx/build".toList,
          .checked "/ctx/build/out".toList, .opened "/ctx/build/out".toList none,
          .checked "/ctx/sock".toList,
          .opened "/ctx/sock".toList
            (some (.os .other "open /ctx/sock: no such device or address".toList)),
          .checked "/ctx/z".toList, .opened "/ctx/z".toList none]) := by
  decide

/-! ### The events of the walk function -/

theorem validateWalkFn_err_events (env : WalkEnv) (contextRoot : Str) (excludes : List Str)
    (filePath : Str) (f : Option FileInfo) (openErr : Option GoError) (e : GoError) :
    (builder.validateWalkFn env contextRoot excludes filePath f openErr (some e)).2 = [] := by
  unfold builder.validateWalkFn
  simp only
  split
  · rfl
  · split <;> rfl

/-! ### A regular file that the walk reaches is opened -/

theorem CheckedOpened_nil (entries : List (Str × Except PathError FileInfo × Option PathError)) :
    CheckedOpened entries [] := by
  intro p hp
  cases hp

theorem CheckedOpened_append
    (ea eb : List (Str × Except PathError FileInfo × Option PathError)) (a b : List Event)
    (ha : CheckedOpened ea a) (hb : CheckedOpened eb b) :
    CheckedOpened (ea ++ eb) (a ++ b) := by
  intro p hp
  rcases List.mem_append.mp hp with h | h
  · obtain ⟨info, oe, h1, h2⟩ := ha p h
    exact ⟨info, oe, List.mem_append_left _ h1,
      fun hd hm => List.mem_append_left _ (h2 hd hm)⟩
  · obtain ⟨info, oe, h1, h2⟩ := hb p h
    exact ⟨info, oe, List.mem_append_right _ h1,
      fun hd hm => List.mem_append_right _ (h2 hd hm)⟩

theorem CheckedOpened_left
    (ea eb : List (Str × Except PathError FileInfo × Option PathError)) (a : List Event)
    (ha : CheckedOpened ea a) : CheckedOpened (ea ++ eb) a := by
  have := CheckedOpened_append ea eb a [] ha (CheckedOpened_nil eb)
  simpa using this

theorem validateWalkFn_events (env : WalkEnv) (contextRoot : Str) (excludes : List Str)
    (filePath : Str) (info : FileInfo) (openErr err : Option GoError) :
    (builder.validateWalkFn env contextRoot excludes filePath (some info) openErr err).2 = []
    ∨ ((builder.validateWalkFn env contextRoot excludes filePath (some info) openErr err).2
          = [.checked filePath]
        ∧ ((info.modeSymlink || info.modeNamedPipe) = true ∨ info.isDir = true))
    ∨ (builder.validateWalkFn env contextRoot excludes filePath (some info) openErr err).2
        = [.checked filePath, .opened filePath openErr] := by
  unfold builder.validateWalkFn
  split
  · split
    · exact Or.inl rfl
    · split <;> exact Or.inl rfl
  · split
    · exact Or.inl rfl
    · split
      · exact Or.inl rfl
      · split <;> exact Or.inl rfl
      · by_cases hm : (info.modeSymlink || info.modeNamedPipe) = true
        · simp [hm]
        · by_cases hd : info.isDir = true
          · simp [hm, hd]
          · simp only [Option.map_some', Option.getD_some, hm, hd, Bool.false_eq_true, if_false,
              Bool.not_false, if_true]
            cases openErr with
            | none => exact Or.inr (Or.inr rfl)
            | some e =>
              simp only
              split <;> exact Or.inr (Or.inr rfl)

theorem validateWalkFn_checkedOpened (env : WalkEnv) (contextRoot : Str) (excludes : List Str)
    (filePath : Str) (info : FileInfo) (openErr : Option PathError) (err : Option GoError) :
    CheckedOpened [(filePath, .ok info, openErr)]
      (builder.validateWalkFn env contextRoot excludes filePath (some info)
        (openErr.map PathError.toError) err).2 := by
  intro p hp
  rcases validateWalkFn_events env contextRoot excludes filePath info
    (openErr.map PathError.toError) err with h | ⟨h, hc⟩ | h
  · rw [h] at hp
    cases hp
  · rw [h] at hp ⊢
    simp only [List.mem_singleton, Event.checked.injEq] at hp
    subst hp
    refine ⟨info, openErr, List.mem_singleton.mpr rfl, ?_⟩
    intro hd hm
    rcases hc with hc | hc
    · rw [hm] at hc
      cases hc
    · rw [hd] at hc
      cases hc
  · rw [h] at hp ⊢
    simp only [List.mem_cons, Event.checked.injEq, List.mem_singleton, reduceCtorEq, or_false,
      List.not_mem_nil] at hp
    subst hp
    exact ⟨info, openErr, List.mem_singleton.mpr rfl, fun _ _ => by simp⟩

mutual
theorem walk_checkedOpened (env : WalkEnv) (contextRoot : Str) (excludes : List Str)
    (path : Str) (info : FileInfo) :
    ∀ node : FsNode, node.lstat = .ok info →
      CheckedOpened (nodeEntries path node)
        (builder.walk env contextRoot excludes path info node).2
  | .mk name lstat openErr readDirErr children, hl => by
    simp only [FsNode.lstat] at hl
    subst hl
    have hfn := validateWalkFn_checkedOpened env contextRoot excludes path info openErr none
    have herr := fun e => validateWalkFn_err_events env contextRoot excludes path (some info)
      (openErr.map PathError.toError) e
    rw [nodeEntries]
    unfold builder.walk
    generalize hres : builder.validateWalkFn env contextRoot excludes path (some info)
      (openErr.map PathError.toError) none = res at hfn ⊢
    obtain ⟨r, ev⟩ := res
    have hev : CheckedOpened ((path, Except.ok info, openErr) :: dirEntries path children) ev :=
      CheckedOpened_left [(path, Except.ok info, openErr)] (dirEntries path children) ev hfn
    cases r with
    | some err =>
      simp only
      split <;> exact hev
    | none =>
      simp only
      split
      · exact hev
      · cases readDirErr with
        | some e =>
          simp only [herr, List.append_nil]
          exact hev
        | none =>
          exact CheckedOpened_append [(path, Except.ok info, openErr)] (dirEntries path children)
            ev _ hfn (walkNames_checkedOpened env contextRoot excludes path children)
theorem walkNames_checkedOpened (env : WalkEnv) (contextRoot : Str) (excludes : List Str)
    (path : Str) :
    ∀ forest : FsForest,
      CheckedOpened (dirEntries path forest)
        (builder.walkNames env contextRoot excludes path forest).2
  | .nil => by
    unfold builder.walkNames
    exact CheckedOpened_nil _
  | .cons (.mk name lstat openErr readDirErr children) rest => by
    have hrest := walkNames_checkedOpened env contextRoot excludes path rest
    rw [dirEntries]
    unfold builder.walkNames
    cases lstat with
    | error e =>
      have herr := validateWalkFn_err_events env contextRoot excludes (filepath.Join path name)
        none (openErr.map PathError.toError) e.toError
      simp only
      generalize hres : builder.validateWalkFn env contextRoot excludes (filepath.Join path name)
        none (openErr.map PathError.toError) (some e.toError) = res at herr ⊢
      obtain ⟨r, ev⟩ := res
      simp only at herr
      subst herr
      have hnil : CheckedOpened (nodeEntries (filepath.Join path name)
          (.mk name (.error e) openErr readDirErr children)) [] := CheckedOpened_nil _
      cases r with
      | some err =>
        simp only
        split
        · exact CheckedOpened_left _ _ _ hnil
        · exact CheckedOpened_append _ _ _ _ hnil hrest
      | none => exact CheckedOpened_append _ _ _ _ hnil hrest
    | ok fileInfo =>
      have hw := walk_checkedOpened env contextRoot excludes (filepath.Join path name) fileInfo
        (.mk name (.ok fileInfo) openErr readDirErr children) rfl
      simp only
      generalize hres : builder.walk env contextRoot excludes (filepath.Join path name) fileInfo
        (.mk name (.ok fileInfo) openErr readDirErr children) = res at hw ⊢
      obtain ⟨r, ev⟩ := res
      cases r with
      | some err =>
        simp only
        split
        · exact CheckedOpened_left _ _ _ hw
        · exact CheckedOpened_append _ _ _ _ hw hrest
      | none => exact CheckedOpened_append _ _ _ _ hw hrest
end

/-- Every entry that `ValidateContextDirectory` checked is an entry of the
context for which `os.Lstat` succeeded, and when it is a regular file the
walk opened it. -/
theorem ValidateContextDirectory_checkedOpened (env : WalkEnv) (tree : FsNode)
    (srcPath contextRoot : Str) (excludes : List Str)
    (hroot : env.getContextRoot srcPath = .ok contextRoot) :
    CheckedOpened (nodeEntries contextRoot tree)
      (builder.ValidateContextDirectory env tree srcPath excludes).2 := by
  unfold builder.ValidateContextDirectory
  simp only [hroot]
  cases tree with
  | mk name lstat openErr readDirErr children =>
    unfold builder.Walk
    cases lstat with
    | error e =>
      simp only [validateWalkFn_err_events]
      exact CheckedOpened_nil _
    | ok info => exact walk_checkedOpened _ _ _ _ _ _ rfl

/-- C7: for every context tree and pattern list.  First, the walk function of
`ValidateContextDirectory`, called for an entry that the patterns do not
exclude, that is not a directory, a symbolic link or a named pipe, and whose
open fails with permission denied, opens the entry and returns the error
`no permission to read from '<path>'`.  Second, if the walk reaches such an
entry (`checked path`: the walk function was called for `path` without an
error and `Matches` answered false; the entry of the tree at `path` has the
`Lstat` answer `info` and the open error `openErr`), then
`ValidateContextDirectory` returns `no permission to read from '<path>'` for
that path, and the open of that entry is the last thing the walk does: no
entry after it is opened. -/
theorem C7_permission_denied_stops_walk (env : WalkEnv) (tree : FsNode)
    (srcPath contextRoot : Str) (excludes : List Str) (path : Str) (info : FileInfo)
    (openErr : PathError)
    (hroot : env.getContextRoot srcPath = .ok contextRoot)
    (hreach : Event.checked path
      ∈ (builder.ValidateContextDirectory env tree srcPath excludes).2)
    (hentry : ∀ x ∈ nodeEntries contextRoot tree, x.1 = path → x.2 = (.ok info, some openErr))
    (hdir : info.isDir = false)
    (hmode : (info.modeSymlink || info.modeNamedPipe) = false)
    (hperm : openErr.toError.IsPermission = true) :
    (∀ (filePath rel : Str) (f : FileInfo) (e : GoError),
        filepath.Rel contextRoot filePath = some rel → env.Matches rel excludes = .ok false →
        f.isDir = false → (f.modeSymlink || f.modeNamedPipe) = false →
        e.IsPermission = true →
        builder.validateWalkFn env contextRoot excludes filePath (some f) (some e) none
          = (some (.errorf "no permission to read from '%s'" [filePath]),
              [.checked filePath, .opened filePath (some e)]))
    ∧ (builder.ValidateContextDirectory env tree srcPath excludes).1
        = some (.errorf "no permission to read from '%s'" [path])
    ∧ ∃ init, (builder.ValidateContextDirectory env tree srcPath excludes).2
        = init ++ [Event.opened path (some openErr.toError)] := by
  refine ⟨?_, ?_⟩
  · intro filePath rel f e hrel hmatch hd hm hp
    unfold builder.validateWalkFn
    simp [hrel, hmatch, hd, hm, hp]
  · obtain ⟨info2, oe, hmem, hopened⟩ :=
      ValidateContextDirectory_checkedOpened env tree srcPath contextRoot excludes hroot path hreach
    have heq := hentry _ hmem rfl
    simp only [Prod.mk.injEq, Except.ok.injEq] at heq
    obtain ⟨rfl, rfl⟩ := heq
    exact ValidateContextDirectory_denied_open_last env tree srcPath excludes path
      openErr.toError (hopened hdir hmode) hperm

theorem C7_permission_denied_stops_walk_witness :
    (∀ (filePath rel : Str) (f : FileInfo) (e : GoError),
        filepath.Rel "/ctx".toList filePath = some rel →
        exampleWalkEnv.Matches rel ["build".toList] = .ok false →
        f.isDir = false → (f.modeSymlink || f.modeNamedPipe) = false →
        e.IsPermission = true →
        builder.validateWalkFn exampleWalkEnv "/ctx".toList ["build".toList] filePath (some f)
            (some e) none
          = (some (.errorf "no permission to read from '%s'" [filePath]),
              [.checked filePath, .opened filePath (some e)]))
    ∧ (builder.ValidateContextDirectory exampleWalkEnv exampleTreeDenied "/ctx".toList
          ["build".toList]).1
        = some (.errorf "no permission to read from '%s'" ["/ctx/secret".toList])
    ∧ ∃ init, (builder.ValidateContextDirectory exampleWalkEnv exampleTreeDenied "/ctx".toList
          ["build".toList]).2
        = init ++ [Event.opened "/ctx/secret".toList
            (some (PathError.toError
              ⟨.permission, "open /ctx/secret: permission denied".toList⟩))] :=
  C7_permission_denied_stops_walk exampleWalkEnv exampleTreeDenied "/ctx".toList "/ctx".toList
    ["build".toList] "/ctx/secret".toList { isDir := false }
    ⟨.permission, "open /ctx/secret: permission denied".toList⟩
    (by decide) (by decide) (by decide) (by decide) (by decide) (by decide)

/-! ### Validation and the archive skip the same entries -/

theorem validateWalkFn_err_ne_SkipDir (env : WalkEnv) (contextRoot : Str)
    (excludes : List Str) (filePath : Str) (f : Option FileInfo) (openErr : Option GoError)
    (e : PathError) :
    (builder.validateWalkFn env contextRoot excludes filePath f openErr (some e.toError)).1
      ≠ some .SkipDir := by
  unfold builder.validateWalkFn
  simp only
  split
  · intro h
    cases h
  · split
    · intro h
      cases h
    · intro h
      simp [PathError.toError] at h

/-- What the function of the walk does with an entry whose `Lstat` succeeded:
it returns `SkipDir` only for a directory that matches, and when it returns no
error the entry either matches, and is not checked, or does not match, and is
checked. -/
theorem validateWalkFn_ok_cases (env : WalkEnv) (contextRoot : Str) (excludes : List Str)
    (filePath : Str) (info : FileInfo) (openErr : Option GoError)
    (hM : ∀ file patterns, env.Matches file patterns ≠ .error .SkipDir) :
    ((builder.validateWalkFn env contextRoot excludes filePath (some info) openErr none).1
        = some .SkipDir →
      info.isDir = true ∧ pathMatches env contextRoot excludes filePath = true
      ∧ checkedPaths
          (builder.validateWalkFn env contextRoot excludes filePath (some info) openErr none).2
        = [])
    ∧ ((builder.validateWalkFn env contextRoot excludes filePath (some info) openErr none).1
        = none →
      (pathMatches env contextRoot excludes filePath = true ∧ info.isDir = false
        ∧ checkedPaths
            (builder.validateWalkFn env contextRoot excludes filePath (some info) openErr
              none).2 = [])
      ∨ (pathMatches env contextRoot excludes filePath = false
        ∧ checkedPaths
            (builder.validateWalkFn env contextRoot excludes filePath (some info) openErr
              none).2 = [filePath])) := by
  unfold builder.validateWalkFn pathMatches
  simp only [Option.map_some', Option.getD_some]
  cases hrel : filepath.Rel contextRoot filePath with
  | none => simp
  | some rel =>
    simp only
    cases hm : env.Matches rel excludes with
    | error e =>
      have hne : e ≠ .SkipDir := fun h => hM rel excludes (by rw [hm, h])
      simp [hne]
    | ok b =>
      cases b with
      | true =>
        by_cases hd : info.isDir = true
        · simp [hd, checkedPaths]
        · simp [hd, checkedPaths]
      | false =>
        simp only
        split
        · simp [checkedPaths]
        · split
          · cases openErr with
            | none => simp [checkedPaths]
            | some e =>
              by_cases hp : e.IsPermission = true
              · simp [hp]
              · simp [hp, checkedPaths]
          · simp [checkedPaths]

mutual
theorem treeEntries_chain (path : Str) (above : List Str) :
    ∀ (node : FsNode) (entry : Str × List Str), entry ∈ treeEntries path above node →
      ∀ q ∈ path :: above, q ∈ entry.2
  | .mk name lstat openErr readDirErr children, entry, hmem => by
    unfold treeEntries at hmem
    cases lstat with
    | error e => simp at hmem
    | ok info =>
      simp only [List.mem_cons] at hmem
      rcases hmem with rfl | hmem
      · intro q hq
        exact hq
      · split at hmem
        · exact forestEntries_chain path (path :: above) children entry hmem
        · simp at hmem
theorem forestEntries_chain (dir : Str) (above : List Str) :
    ∀ (forest : FsForest) (entry : Str × List Str), entry ∈ forestEntries dir above forest →
      ∀ q ∈ above, q ∈ entry.2
  | .nil, entry, hmem => by
    simp [forestEntries] at hmem
  | .cons (.mk name lstat openErr readDirErr children) rest, entry, hmem => by
    unfold forestEntries at hmem
    rcases List.mem_append.mp hmem with h | h
    · intro q hq
      exact treeEntries_chain (filepath.Join dir name) above _ entry h q
        (List.mem_cons_of_mem _ hq)
    · exact forestEntries_chain dir above rest entry h
end

/-- Below a path that matches, the archive holds nothing. -/
theorem treeEntries_filter_of_matches (env : WalkEnv) (contextRoot : Str)
    (excludes : List Str) (path : Str) (above : List Str) (node : FsNode)
    (hm : pathMatches env contextRoot excludes path = true) :
    (treeEntries path above node).filter
      (fun entry => !(entry.2.any (pathMatches env contextRoot excludes))) = [] := by
  rw [List.filter_eq_nil_iff]
  intro entry hmem
  have hq := treeEntries_chain path above node entry hmem path (List.mem_cons_self _ _)
  simp only [Bool.not_eq_true', Bool.not_eq_false, List.any_eq_true]
  exact ⟨path, hq, hm⟩

mutual
theorem walk_ne_SkipDir (env : WalkEnv) (contextRoot : Str) (excludes : List Str)
    (hM : ∀ file patterns, env.Matches file patterns ≠ .error .SkipDir) (path : Str)
    (info : FileInfo) :
    ∀ node : FsNode, (builder.walk env contextRoot excludes path info node).1 ≠ some .SkipDir
  | .mk name lstat openErr readDirErr children => by
    have hfn := (validateWalkFn_ok_cases env contextRoot excludes path info
      (openErr.map PathError.toError) hM).1
    unfold builder.walk
    cases hres : builder.validateWalkFn env contextRoot excludes path (some info)
      (openErr.map PathError.toError) none with
    | mk r ev =>
      rw [hres] at hfn
      cases r with
      | some err =>
        simp only
        split
        · simp
        · rename_i hcond
          intro h
          simp only [Option.some.injEq] at h
          subst h
          have := (hfn rfl).1
          simp [this] at hcond
      | none =>
        simp only
        split
        · simp
        · cases readDirErr with
          | some e =>
            exact validateWalkFn_err_ne_SkipDir env contextRoot excludes path (some info)
              (openErr.map PathError.toError) e
          | none => exact walkNames_ne_SkipDir env contextRoot excludes hM path children
theorem walkNames_ne_SkipDir (env : WalkEnv) (contextRoot : Str) (excludes : List Str)
    (hM : ∀ file patterns, env.Matches file patterns ≠ .error .SkipDir) (path : Str) :
    ∀ forest : FsForest,
      (builder.walkNames env contextRoot excludes path forest).1 ≠ some .SkipDir
  | .nil => by
    simp [builder.walkNames]
  | .cons (.mk name lstat openErr readDirErr children) rest => by
    have hrest := walkNames_ne_SkipDir env contextRoot excludes hM path rest
    unfold builder.walkNames
    cases lstat with
    | error e =>
      simp only
      cases hres : builder.validateWalkFn env contextRoot excludes (filepath.Join path name)
        none (openErr.map PathError.toError) (some e.toError) with
      | mk r ev =>
        cases r with
        | some err =>
          simp only
          split
          · rename_i hne
            intro h
            simp only [Option.some.injEq] at h
            subst h
            simp at hne
          · exact hrest
        | none => exact hrest
    | ok fileInfo =>
      have hw := walk_ne_SkipDir env contextRoot excludes hM (filepath.Join path name) fileInfo
        (.mk name (.ok fileInfo) openErr readDirErr children)
      simp only
      cases hres : builder.walk env contextRoot excludes (filepath.Join path name) fileInfo
        (.mk name (.ok fileInfo) openErr readDirErr children) with
      | mk r ev =>
        rw [hres] at hw
        cases r with
        | some err =>
          simp only
          split
          · exact hw
          · exact hrest
        | none => exact hrest
end

theorem treeEntries_ok (path : Str) (above : List Str) (name : Str) (info : FileInfo)
    (openErr readDirErr : Option PathError) (children : FsForest) :
    treeEntries path above (.mk name (.ok info) openErr readDirErr children)
      = (path, path :: above) ::
          (if info.isDir && readDirErr.isNone then forestEntries path (path :: above) children
           else []) := by
  rw [treeEntries]

theorem checkedPaths_append (a b : List Event) :
    checkedPaths (a ++ b) = checkedPaths a ++ checkedPaths b := by
  simp [checkedPaths, List.filterMap_append]

mutual
theorem walk_checked (env : WalkEnv) (contextRoot : Str) (excludes : List Str)
    (hM : ∀ file patterns, env.Matches file patterns ≠ .error .SkipDir) (path : Str)
    (info : FileInfo) (above : List Str)
    (habove : ∀ q ∈ above, pathMatches env contextRoot excludes q = false) :
    ∀ node : FsNode, node.lstat = .ok info →
      (builder.walk env contextRoot excludes path info node).1 = none →
      checkedPaths (builder.walk env contextRoot excludes path info node).2
        = ((treeEntries path above node).filter
            (fun entry => !(entry.2.any (pathMatches env contextRoot excludes)))).map Prod.fst
  | .mk name lstat openErr readDirErr children, hl, hnone => by
    simp only [FsNode.lstat] at hl
    subst hl
    obtain ⟨hskip, hnoneCase⟩ := validateWalkFn_ok_cases env contextRoot excludes path info
      (openErr.map PathError.toError) hM
    have herr := fun e => validateWalkFn_err_events env contextRoot excludes path (some info)
      (openErr.map PathError.toError) e
    unfold builder.walk at hnone ⊢
    generalize hres : builder.validateWalkFn env contextRoot excludes path (some info)
      (openErr.map PathError.toError) none = res at hnone hskip hnoneCase ⊢
    obtain ⟨r, ev⟩ := res
    cases r with
    | some err =>
      simp only at hnone ⊢
      by_cases hcond : (info.isDir && err == .SkipDir) = true
      · simp only [hcond, if_true] at hnone ⊢
        simp only [Bool.and_eq_true, beq_iff_eq] at hcond
        obtain ⟨_, hm, hc⟩ := hskip (by rw [hcond.2])
        rw [treeEntries_filter_of_matches env contextRoot excludes path above _ hm]
        simpa using hc
      · simp only [hcond, Bool.false_eq_true, if_false] at hnone
        cases hnone
    | none =>
      simp only at hnone ⊢
      rcases hnoneCase rfl with ⟨hm, hd, hc⟩ | ⟨hm, hc⟩
      · simp only [hd, Bool.not_false, if_true] at hnone ⊢
        rw [treeEntries_filter_of_matches env contextRoot excludes path above _ hm]
        simpa using hc
      · have hself : (!((path :: above).any (pathMatches env contextRoot excludes))) = true := by
          simp only [List.any_cons, hm, Bool.false_or, Bool.not_eq_true', List.any_eq_false]
          intro q hq
          simp [habove q hq]
        have habove2 : ∀ q ∈ path :: above, pathMatches env contextRoot excludes q = false := by
          intro q hq
          rcases List.mem_cons.mp hq with rfl | hq
          · exact hm
          · exact habove q hq
        rw [treeEntries_ok, List.filter_cons_of_pos
          (p := fun entry : Str × List Str =>
            !(entry.2.any (pathMatches env contextRoot excludes))) hself, List.map_cons]
        by_cases hd : info.isDir = true
        · simp only [hd, Bool.not_true, Bool.false_eq_true, if_false, Bool.true_and] at hnone ⊢
          cases readDirErr with
          | some e =>
            simp only [herr, List.append_nil] at hnone ⊢
            simp [hc]
          | none =>
            simp only at hnone ⊢
            have ih := walkNames_checked env contextRoot excludes hM path (path :: above)
              habove2 children hnone
            rw [checkedPaths_append, hc, ih]
            simp
        · have hd2 : info.isDir = false := by simpa using hd
          simp only [hd2, Bool.not_false, if_true] at hnone ⊢
          simp [hc]
theorem walkNames_checked (env : WalkEnv) (contextRoot : Str) (excludes : List Str)
    (hM : ∀ file patterns, env.Matches file patterns ≠ .error .SkipDir) (dir : Str)
    (above : List Str)
    (habove : ∀ q ∈ above, pathMatches env contextRoot excludes q = false) :
    ∀ forest : FsForest,
      (builder.walkNames env contextRoot excludes dir forest).1 = none →
      checkedPaths (builder.walkNames env contextRoot excludes dir forest).2
        = ((forestEntries dir above forest).filter
            (fun entry => !(entry.2.any (pathMatches env contextRoot excludes)))).map Prod.fst
  | .nil, _ => by
    simp [builder.walkNames, forestEntries, checkedPaths]
  | .cons (.mk name lstat openErr readDirErr children) rest, hnone => by
    have ihrest := walkNames_checked env contextRoot excludes hM dir above habove rest
    unfold builder.walkNames at hnone ⊢
    rw [forestEntries, List.filter_append, List.map_append]
    cases lstat with
    | error e =>
      have herr := validateWalkFn_err_events env contextRoot excludes (filepath.Join dir name)
        none (openErr.map PathError.toError) e.toError
      simp only at hnone ⊢
      generalize hres : builder.validateWalkFn env contextRoot excludes
        (filepath.Join dir name) none (openErr.map PathError.toError) (some e.toError) = res
        at hnone herr ⊢
      obtain ⟨r, ev⟩ := res
      simp only at herr
      subst herr
      have hnil : treeEntries (filepath.Join dir name) above
          (.mk name (.error e) openErr readDirErr children) = [] := by
        rw [treeEntries]
      rw [hnil]
      cases r with
      | some err =>
        simp only at hnone ⊢
        by_cases hne : (err != .SkipDir) = true
        · simp only [hne, if_true] at hnone
          cases hnone
        · simp only [hne, Bool.false_eq_true, if_false, List.nil_append] at hnone ⊢
          simpa using ihrest hnone
      | none =>
        simp only [List.nil_append] at hnone ⊢
        simpa using ihrest hnone
    | ok fileInfo =>
      have hw := walk_checked env contextRoot excludes hM (filepath.Join dir name) fileInfo
        above habove (.mk name (.ok fileInfo) openErr readDirErr children) rfl
      have hns := walk_ne_SkipDir env contextRoot excludes hM (filepath.Join dir name) fileInfo
        (.mk name (.ok fileInfo) openErr readDirErr children)
      simp only at hnone ⊢
      generalize hres : builder.walk env contextRoot excludes (filepath.Join dir name)
        fileInfo (.mk name (.ok fileInfo) openErr readDirErr children) = res
        at hnone hw hns ⊢
      obtain ⟨r, ev⟩ := res
      cases r with
      | some err =>
        simp only at hnone ⊢
        by_cases hcond : (!fileInfo.isDir || err != .SkipDir) = true
        · simp only [hcond, if_true] at hnone
          cases hnone
        · exfalso
          apply hns
          simp only [Bool.or_eq_true, Bool.not_eq_true', bne_iff_ne, ne_eq, not_or,
            Bool.not_eq_false, not_not] at hcond
          simp [hcond.2]
      | none =>
        simp only at hnone hw ⊢
        rw [checkedPaths_append, hw trivial, ihrest hnone]
end

/-- C11: the request succeeds and the decoding of the response fails on a
malformed line, with an error that is not a terminal error record; `runBuild`
returns nil, and `main` ends with exit code 0. -/
theorem C11_decode_error_dropped :
    engine.runBuildUpload exampleBuildEnvMalformed exampleOptions
        = .inr ("Sending build context".toList, [4, 5, 6])
    ∧ (exampleBuildEnvMalformed.DisplayJSONMessagesStream [4, 5, 6]).2
        = some (.errorf "invalid character 'x' looking for beginning of value" [])
    ∧ (engine.runBuild exampleBuildEnvMalformed exampleOptions).1 = none
    ∧ mainExitCode (engine.runBuild exampleBuildEnvMalformed exampleOptions).1 = 0 := by
  decide

/-- Whatever error that is not a `*JSONError` the decoding of the response
returns, `runBuild` returns nil. -/
theorem runBuild_drops_decode_error (env : BuildEnv) (options : buildOptions)
    (progress serverText : Str) (responseBody : List Byte) (err : GoError)
    (hup : engine.runBuildUpload env options = .inr (progress, responseBody))
    (hdec : env.DisplayJSONMessagesStream responseBody = (serverText, some err))
    (hjson : ∀ code message, err ≠ .jsonError code message) :
    (engine.runBuild env options).1 = none := by
  unfold engine.runBuild
  simp only [hup, hdec]
  cases err with
  | jsonError code message => exact absurd rfl (hjson code message)
  | _ => rfl

/-- Whatever the positional argument is, `runBuild` resolves it with
`GetContextFromLocalDir`, and fails when that fails. -/
theorem runBuild_resolves_local_dir (env : BuildEnv) (options : buildOptions) (err : GoError)
    (h : builder.GetContextFromLocalDir env.sys options.context options.enginefileName
      = .error err) :
    (engine.runBuild env options).1 = some (.wrap "unable to prepare context: %s" [] err) := by
  unfold engine.runBuild engine.runBuildUpload
  simp only [h]

/-- C12: for the argument `-`, for a URL and for a git URL, `runBuild` (working
directory `/a`) resolves the argument as a local directory path (the entry
named `-` of `/a`, the path `/a/https:/example.com/ctx.tar`, the path
`/a/git:/example.com/repo.git`) and fails because no such directory exists;
standard input, the download and the clone are never used. -/
theorem C12_every_argument_is_a_local_dir :
    filepath.Abs exampleOS "-".toList = .ok "/a/-".toList
    ∧ (engine.runBuild exampleBuildEnv { exampleOptions with context := "-".toList }).1
        = some (.wrap "unable to prepare context: %s" []
            (.wrap "unable to evaluate symlinks in context path: %v" []
              (.os .notExist "lstat: no such file or directory".toList)))
    ∧ filepath.Abs exampleOS "https://example.com/ctx.tar".toList
        = .ok "/a/https:/example.com/ctx.tar".toList
    ∧ (engine.runBuild exampleBuildEnv
          { exampleOptions with context := "https://example.com/ctx.tar".toList }).1
        = some (.wrap "unable to prepare context: %s" []
            (.wrap "unable to evaluate symlinks in context path: %v" []
              (.os .notExist "lstat: no such file or directory".toList)))
    ∧ (engine.runBuild exampleBuildEnv
          { exampleOptions with context := "git://example.com/repo.git".toList }).1
        = some (.wrap "unable to prepare context: %s" []
            (.wrap "unable to evaluate symlinks in context path: %v" []
              (.os .notExist "lstat: no such file or directory".toList))) := by
  decide

/-! ### The temporary directory of `GetContextFromReader` -/

theorem ReadDir_RemoveAll (w : World) (dir : Str) : os.ReadDir (os.RemoveAll w dir) dir = none := by
  unfold os.ReadDir os.RemoveAll
  simp only [Option.map_eq_none', List.find?_eq_none, List.mem_filter]
  intro x hx
  simpa using hx.2

/-- C13 (counterexample): for the plain stream `FROM\n`, when `os.Create`
fails after the temporary directory was created, `GetContextFromReader`
returns the error and the directory `/tmp/ctx` still exists.  And `Close` of
the stream returned on success keeps no record of having run: on a world in
which the directory is there again, a further `Close` removes it again. -/
theorem C13_counterexample_tmpdir_left :
    builder.GetContextFromReader exampleSysCreateFails ⟨[]⟩ { data := [70, 82, 79, 77, 10] } []
        = (.error (.os .permission "open /tmp/ctx/Enginefile: permission denied".toList),
            ⟨[("/tmp/ctx".toList, [])]⟩)
    ∧ os.ReadDir
        (builder.GetContextFromReader exampleSysCreateFails ⟨[]⟩
          { data := [70, 82, 79, 77, 10] } []).2 "/tmp/ctx".toList = some []
    ∧ (ioutils.Close
          { data := [70, 82, 79, 77, 10], readErr := none,
            closer := .tarThenRemoveAll none "/tmp/ctx".toList }
          (ioutils.Close
            { data := [70, 82, 79, 77, 10], readErr := none,
              closer := .tarThenRemoveAll none "/tmp/ctx".toList }
            ⟨[("/tmp/ctx".toList, [(builder.DefaultEnginefileName, [70, 82, 79, 77, 10])])]⟩).2)
        = (none, ⟨[]⟩)
    ∧ (ioutils.Close
          { data := [70, 82, 79, 77, 10], readErr := none,
            closer := .tarThenRemoveAll none "/tmp/ctx".toList }
          ⟨[("/tmp/ctx".toList, [("other".toList, [1])])]⟩)
        = (none, ⟨[]⟩) := by
  decide

/-- C13 (amended): for every non-archive input for which
`GetContextFromReader` succeeds, the temporary directory exists when the
function returns and is removed when the returned stream is closed, not
before; `Close` returns the result of closing the archive stream, and every
`Close` runs the removal, whatever was closed before. -/
theorem C13_tmpdir_removed_on_close (sys : Sys) (w : World) (r : Reader)
    (enginefileName d : Str) (t : List Byte) (ce : Option GoError)
    (hsize : sys.HeaderSize ≤ bufio.defaultBufSize)
    (hread : r.readErr = none) (hclose : r.closeErr = none)
    (harch : sys.IsArchive (bufio.Peek r sys.HeaderSize).1 = false)
    (htmp : sys.TempDir = .ok d)
    (hcreate : sys.Create d builder.DefaultEnginefileName = none)
    (hwrite : sys.writeFault = none) (hfclose : sys.fileClose = none)
    (htar : sys.Tar d [(builder.DefaultEnginefileName, r.data)] = .ok (t, ce)) :
    ∃ rc w2, builder.GetContextFromReader sys w r enginefileName
        = (.ok (rc, builder.DefaultEnginefileName), w2)
      ∧ os.ReadDir w2 d = some [(builder.DefaultEnginefileName, r.data)]
      ∧ (ioutils.Close rc w2).1 = ce
      ∧ os.ReadDir (ioutils.Close rc w2).2 d = none
      ∧ ∀ w3, os.ReadDir (ioutils.Close rc w3).2 d = none := by
  have hdir : os.ReadDir
      (os.writeFile { tmpDirs := (d, []) :: w.tmpDirs } d builder.DefaultEnginefileName r.data) d
      = some [(builder.DefaultEnginefileName, r.data)] := by
    simp [os.ReadDir, os.writeFile]
  refine ⟨{ data := t, readErr := none, closer := .tarThenRemoveAll ce d },
    os.writeFile { tmpDirs := (d, []) :: w.tmpDirs } d builder.DefaultEnginefileName r.data,
    ?_, hdir, rfl, ReadDir_RemoveAll _ d, fun w3 => ReadDir_RemoveAll w3 d⟩
  unfold builder.GetContextFromReader
  have hfalse : (((bufio.Peek r sys.HeaderSize).2).isSome
      && (bufio.Peek r sys.HeaderSize).2 != some bufio.EOF) = false := by
    rcases Peek_ok_or_EOF r sys.HeaderSize hsize hread with h | h <;> simp [h]
  simp only [hfalse, Bool.false_eq_true, if_false, harch, htmp, hcreate, hwrite, hread,
    hfclose, hclose, Option.filter, hdir, Option.getD_some, htar]

theorem C13_tmpdir_removed_on_close_witness :
    ∃ rc w2, builder.GetContextFromReader builder.exampleSys ⟨[]⟩
          { data := [70, 82, 79, 77, 10] } []
        = (.ok (rc, builder.DefaultEnginefileName), w2)
      ∧ os.ReadDir w2 "/tmp/ctx".toList
          = some [(builder.DefaultEnginefileName, [70, 82, 79, 77, 10])]
      ∧ (ioutils.Close rc w2).1 = none
      ∧ os.ReadDir (ioutils.Close rc w2).2 "/tmp/ctx".toList = none
      ∧ ∀ w3, os.ReadDir (ioutils.Close rc w3).2 "/tmp/ctx".toList = none :=
  C13_tmpdir_removed_on_close builder.exampleSys ⟨[]⟩ { data := [70, 82, 79, 77, 10] }
    [] "/tmp/ctx".toList [70, 82, 79, 77, 10] none
    (by decide) rfl rfl (by decide) rfl rfl rfl rfl (by decide)

/-! ### The flags of the build command -/

theorem foldl_setFlag_quiet (given : List BuildFlag) (options : buildOptions) :
    (given.foldl engine.setFlag options).quiet = options.quiet := by
  induction given generalizing options with
  | nil => rfl
  | cons flag rest ih =>
    rw [List.foldl_cons, ih]
    cases flag <;> rfl

/-- C14: whatever flags are given, `options.quiet` is false after parsing:
the quiet flag is bound to `options.compress`.  With `-q` alone
`options.quiet` is false and `options.compress` true; with
`--compress=false -q` the quiet flag turns compression on again; and
`runBuild` called after `-q` writes the progress text and the server text
straight to the output stream. -/
theorem C14_quiet_flag_sets_compress (given : List BuildFlag) (arg : Str) :
    (engine.NewBuildCommand given arg).quiet = false
    ∧ engine.NewBuildCommand [.quiet true] "/a/b".toList
        = { context := "/a/b".toList, enginefileName := [], quiet := false, compress := true }
    ∧ (engine.NewBuildCommand [.compress false, .quiet true] "/a/b".toList).compress = true
    ∧ (engine.NewBuildCommand [.quiet false] "/a/b".toList).compress = false
    ∧ engine.runBuild exampleBuildEnvOk (engine.NewBuildCommand [.quiet true] "/a/b".toList)
        = (none, { out := "Sending build contextengine-id\n".toList, err := [] }) := by
  refine ⟨?_, by decide, by decide, by decide, by decide⟩
  unfold engine.NewBuildCommand
  simp only [foldl_setFlag_quiet]

/-! ### Cleaning a path that continues after a separator -/

theorem isEmpty_or_head_sep_append (tl rest : Str) :
    ((tl ++ '/' :: rest).isEmpty || ((tl ++ '/' :: rest).head?.any filepath.IsPathSeparator))
      = (tl.isEmpty || (tl.head?.any filepath.IsPathSeparator)) := by
  cases tl with
  | nil => simp [filepath.IsPathSeparator, filepath.Separator]
  | cons x tl2 => simp

theorem dotdot_test_append (c : Char) (tl rest : Str) :
    (c == '.' && (tl ++ '/' :: rest).head? == some '.' &&
        (((tl ++ '/' :: rest).drop 1).isEmpty
          || (((tl ++ '/' :: rest).drop 1).head?.any filepath.IsPathSeparator)))
      = (c == '.' && tl.head? == some '.' &&
        ((tl.drop 1).isEmpty || ((tl.drop 1).head?.any filepath.IsPathSeparator))) := by
  cases tl with
  | nil => simp
  | cons x tl2 =>
    simp only [List.cons_append, List.head?_cons, List.drop_succ_cons, List.drop_zero,
      isEmpty_or_head_sep_append]

theorem drop_one_append (tl rest : Str) (h : tl ≠ []) :
    (tl ++ '/' :: rest).drop 1 = tl.drop 1 ++ '/' :: rest := by
  cases tl with
  | nil => exact absurd rfl h
  | cons x tl2 => simp

theorem takeWhile_not_sep_append (a rest : Str) :
    (a ++ '/' :: rest).takeWhile (fun x => !filepath.IsPathSeparator x)
      = a.takeWhile (fun x => !filepath.IsPathSeparator x) := by
  induction a with
  | nil => simp [filepath.IsPathSeparator, filepath.Separator]
  | cons c tl ih =>
    simp only [List.cons_append, List.takeWhile_cons, ih]

theorem dropWhile_not_sep_append (a rest : Str) :
    (a ++ '/' :: rest).dropWhile (fun x => !filepath.IsPathSeparator x)
      = a.dropWhile (fun x => !filepath.IsPathSeparator x) ++ '/' :: rest := by
  induction a with
  | nil => simp [filepath.IsPathSeparator, filepath.Separator]
  | cons c tl ih =>
    simp only [List.cons_append, List.dropWhile_cons, ih]
    split <;> rfl

/-- The loop of `Clean` on a rooted path, over a text that continues after a
separator: the loop first does what it does on the text before the separator,
then goes on from there. -/
theorem cleanLoop_append (n : Nat) :
    ∀ (k m : Nat) (a out rest : Str) (dd : Nat), a.length ≤ n →
      (a ++ '/' :: rest).length ≤ k → ('/' :: rest).length ≤ m →
      filepath.cleanLoop true k (a ++ '/' :: rest) out dd
        = filepath.cleanLoop true m ('/' :: rest) (filepath.cleanLoop true n a out dd) dd := by
  induction n with
  | zero =>
    intro k m a out rest dd ha hk hm
    have : a = [] := List.length_eq_zero.mp (Nat.le_zero.mp ha)
    subst this
    simp only [List.nil_append, filepath.cleanLoop]
    exact cleanLoop_fuel true k m _ out dd (by simpa using hk) hm
  | succ n ih =>
    intro k m a out rest dd ha hk hm
    cases a with
    | nil =>
      simp only [List.nil_append, filepath.cleanLoop]
      exact cleanLoop_fuel true k m _ out dd (by simpa using hk) hm
    | cons c tl =>
      cases k with
      | zero => simp at hk
      | succ k =>
        have ha2 : tl.length ≤ n := by simpa using ha
        have hk2 : (tl ++ '/' :: rest).length ≤ k := by simpa using hk
        have hd : (tl.drop 1).length ≤ n := by
          rw [List.length_drop]
          omega
        rw [List.cons_append]
        rw [filepath.cleanLoop, filepath.cleanLoop]
        by_cases hsep : filepath.IsPathSeparator c = true
        · simp only [hsep, if_true]
          exact ih k m tl out rest dd ha2 hk2 hm
        · have hp : (!filepath.IsPathSeparator c) = true := by simp [hsep]
          simp only [hsep, Bool.false_eq_true, if_false, isEmpty_or_head_sep_append,
            dotdot_test_append]
          by_cases h1 : (c == '.' && (tl.isEmpty || (tl.head?.any filepath.IsPathSeparator)))
              = true
          · simp only [h1, if_true]
            exact ih k m tl out rest dd ha2 hk2 hm
          · simp only [h1, Bool.false_eq_true, if_false]
            by_cases h2 : (c == '.' && tl.head? == some '.' &&
                ((tl.drop 1).isEmpty || ((tl.drop 1).head?.any filepath.IsPathSeparator)))
                = true
            · have hne : tl ≠ [] := by
                intro h
                simp [h] at h2
              have hk3 : (tl.drop 1 ++ '/' :: rest).length ≤ k := by
                rw [← drop_one_append tl rest hne, List.length_drop]
                omega
              simp only [h2, if_true, drop_one_append tl rest hne]
              split
              · exact ih k m _ _ rest dd hd hk3 hm
              · simp only [Bool.not_true, Bool.false_eq_true, if_false]
                exact ih k m _ _ rest dd hd hk3 hm
            · simp only [h2, Bool.false_eq_true, if_false]
              rw [← List.cons_append, takeWhile_not_sep_append, dropWhile_not_sep_append]
              have hlen := length_dropWhile_cons_le (fun x => !filepath.IsPathSeparator x)
                c tl hp
              refine ih k m _ _ rest dd (le_trans hlen ha2) ?_ hm
              rw [List.length_append]
              simp only [List.length_append, List.length_cons] at hk2
              simp only [List.length_cons]
              omega
theorem takeWhile_eq_self_of_no_sep (n : Str) (hsep : ∀ c ∈ n, c ≠ '/') :
    n.takeWhile (fun x => !filepath.IsPathSeparator x) = n := by
  rw [List.takeWhile_eq_self_iff]
  intro c hc
  simpa [filepath.IsPathSeparator, filepath.Separator] using hsep c hc

theorem dropWhile_eq_nil_of_no_sep (n : Str) (hsep : ∀ c ∈ n, c ≠ '/') :
    n.dropWhile (fun x => !filepath.IsPathSeparator x) = [] := by
  rw [List.dropWhile_eq_nil_iff]
  intro c hc
  simpa [filepath.IsPathSeparator, filepath.Separator] using hsep c hc

/-- The loop of `Clean` on a rooted path, at a last element that is a plain
name: the name is appended, after a separator unless the buffer holds only
the root. -/
theorem cleanLoop_plain_name (k : Nat) (n out : Str) (dd : Nat) (hne : n ≠ [])
    (hsep : ∀ c ∈ n, c ≠ '/') (hdot : n ≠ ['.']) (hdotdot : n ≠ ['.', '.']) :
    filepath.cleanLoop true (k + 1) n out dd
      = (if out.length != 1 then out ++ ['/'] else out) ++ n := by
  cases n with
  | nil => exact absurd rfl hne
  | cons c tl =>
    have hc : filepath.IsPathSeparator c = false := by
      simpa [filepath.IsPathSeparator, filepath.Separator] using hsep c (List.mem_cons_self _ _)
    have htl : ∀ x ∈ tl, x ≠ '/' := fun x hx => hsep x (List.mem_cons_of_mem _ hx)
    have hhead : tl.head?.any filepath.IsPathSeparator = false := by
      cases tl with
      | nil => rfl
      | cons x tl2 =>
        simpa [filepath.IsPathSeparator, filepath.Separator] using htl x (List.mem_cons_self _ _)
    have h1 : (c == '.' && (tl.isEmpty || (tl.head?.any filepath.IsPathSeparator))) = false := by
      rw [hhead, Bool.or_false]
      cases tl with
      | nil =>
        simp only [List.isEmpty_nil, Bool.and_true, beq_eq_false_iff_ne, ne_eq]
        intro h
        exact hdot (by rw [h])
      | cons x tl2 => simp
    have h2 : (c == '.' && tl.head? == some '.' &&
        ((tl.drop 1).isEmpty || ((tl.drop 1).head?.any filepath.IsPathSeparator))) = false := by
      cases tl with
      | nil => simp
      | cons x tl2 =>
        cases tl2 with
        | nil =>
          simp only [List.head?_cons, List.drop_succ_cons, List.drop_zero, List.isEmpty_nil,
            Bool.true_or, Bool.and_true, Bool.and_eq_false_imp, beq_iff_eq]
          intro h3
          subst h3
          simp only [beq_eq_false_iff_ne, ne_eq, Option.some.injEq]
          intro h4
          exact hdotdot (by rw [h4])
        | cons y tl3 =>
          have hy : filepath.IsPathSeparator y = false := by
            simpa [filepath.IsPathSeparator, filepath.Separator] using
              htl y (List.mem_cons_of_mem _ (List.mem_cons_self _ _))
          simp [hy]
    rw [filepath.cleanLoop]
    simp only [hc, Bool.false_eq_true, if_false, h1, h2,
      takeWhile_eq_self_of_no_sep _ hsep, dropWhile_eq_nil_of_no_sep _ hsep,
      Bool.true_and, Bool.not_true, Bool.false_and, Bool.or_false]
    cases k <;> simp [filepath.cleanLoop, filepath.Separator]

theorem dropWhile_not_sep_head (l : Str) :
    l.dropWhile (fun x => !filepath.IsPathSeparator x) = []
      ∨ (l.dropWhile (fun x => !filepath.IsPathSeparator x)).head? = some '/' := by
  induction l with
  | nil => left; rfl
  | cons c tl ih =>
    rw [List.dropWhile_cons]
    split
    · exact ih
    · right
      rename_i h
      simp only [Bool.not_eq_true', Bool.not_eq_false] at h
      simpa [filepath.IsPathSeparator, filepath.Separator] using h

/-- The loop of `Clean` on a rooted path does not make the text longer: its
result is at most as long as the buffer and the text to read together, plus
one for the separator before the element read, and that one only when the
buffer holds more than the root and the text starts inside an element. -/
theorem cleanLoop_length (n : Nat) :
    ∀ (rest out : Str) (dd : Nat),
      (filepath.cleanLoop true n rest out dd).length ≤ out.length + rest.length + 1
      ∧ ((out.length = 1 ∨ rest = [] ∨ rest.head? = some '/') →
          (filepath.cleanLoop true n rest out dd).length ≤ out.length + rest.length) := by
  induction n with
  | zero =>
    intro rest out dd
    simp [filepath.cleanLoop]
    omega
  | succ n ih =>
    intro rest out dd
    cases rest with
    | nil =>
      simp [filepath.cleanLoop]
    | cons c tl =>
      rw [filepath.cleanLoop]
      by_cases hsep : filepath.IsPathSeparator c = true
      · simp only [hsep, if_true, List.length_cons]
        have h := (ih tl out dd).1
        exact ⟨by omega, fun _ => by omega⟩
      · have hcne : c ≠ '/' := by
          intro h
          apply hsep
          simp [h, filepath.IsPathSeparator, filepath.Separator]
        simp only [hsep, Bool.false_eq_true, if_false, List.length_cons]
        by_cases h1 : (c == '.' && (tl.isEmpty || (tl.head?.any filepath.IsPathSeparator)))
            = true
        · simp only [h1, if_true]
          have htl : tl = [] ∨ tl.head? = some '/' := by
            simp only [Bool.and_eq_true, Bool.or_eq_true] at h1
            rcases h1.2 with h | h
            · left
              simpa using h
            · right
              cases tl with
              | nil => simp at h
              | cons x tl2 =>
                simpa [filepath.IsPathSeparator, filepath.Separator] using h
          have h := (ih tl out dd).2 (Or.inr htl)
          exact ⟨by omega, fun _ => by omega⟩
        · simp only [h1, Bool.false_eq_true, if_false]
          by_cases h2 : (c == '.' && tl.head? == some '.' &&
              ((tl.drop 1).isEmpty || ((tl.drop 1).head?.any filepath.IsPathSeparator)))
              = true
          · simp only [h2, if_true, Bool.not_true, Bool.false_eq_true, if_false]
            have htl : tl.drop 1 = [] ∨ (tl.drop 1).head? = some '/' := by
              simp only [Bool.and_eq_true, Bool.or_eq_true] at h2
              rcases h2.2 with h | h
              · left
                simpa using h
              · right
                cases hd : tl.drop 1 with
                | nil => rw [hd] at h; simp at h
                | cons x tl2 =>
                  rw [hd] at h
                  simpa [filepath.IsPathSeparator, filepath.Separator] using h
            have hlen : (tl.drop 1).length ≤ tl.length := by
              rw [List.length_drop]
              omega
            split
            · have h := (ih (tl.drop 1)
                (out.take (filepath.scanBack out dd (out.length - 1))) dd).2 (Or.inr htl)
              have ht : (out.take (filepath.scanBack out dd (out.length - 1))).length
                  ≤ out.length := by
                rw [List.length_take]
                omega
              exact ⟨by omega, fun _ => by omega⟩
            · have h := (ih (tl.drop 1) out dd).2 (Or.inr htl)
              exact ⟨by omega, fun _ => by omega⟩
          · simp only [h2, Bool.false_eq_true, if_false, Bool.true_and, Bool.not_true,
              Bool.false_and, Bool.or_false]
            have hsplit := List.takeWhile_append_dropWhile
              (fun x => !filepath.IsPathSeparator x) (c :: tl)
            have hl : ((c :: tl).takeWhile (fun x => !filepath.IsPathSeparator x)).length
                + ((c :: tl).dropWhile (fun x => !filepath.IsPathSeparator x)).length
                = tl.length + 1 := by
              rw [← List.length_append, hsplit, List.length_cons]
            have h := (ih ((c :: tl).dropWhile (fun x => !filepath.IsPathSeparator x))
              ((if (out.length != 1) = true then out ++ [filepath.Separator] else out)
                ++ (c :: tl).takeWhile (fun x => !filepath.IsPathSeparator x)) dd).2
              (Or.inr (dropWhile_not_sep_head (c :: tl)))
            rw [List.length_append] at h
            constructor
            · have : (if (out.length != 1) = true then out ++ [filepath.Separator]
                  else out).length ≤ out.length + 1 := by
                split <;> simp
              omega
            · intro hcond
              have hone : out.length = 1 := by
                rcases hcond with h3 | h3 | h3
                · exact h3
                · simp at h3
                · simp only [List.head?_cons, Option.some.injEq] at h3
                  exact absurd h3 hcne
              have : (if (out.length != 1) = true then out ++ [filepath.Separator]
                  else out).length = out.length := by
                simp [hone]
              omega
theorem head_of_IsAbs (d : Str) (habs : filepath.IsAbs d = true) : ∃ tl, d = '/' :: tl := by
  cases d with
  | nil => simp [filepath.IsAbs, strings.HasPrefix] at habs
  | cons c tl =>
    refine ⟨tl, ?_⟩
    simp [filepath.IsAbs, strings.HasPrefix, filepath.Separator] at habs
    rw [habs]

/-- For an absolute path that `Clean` leaves as it is, the loop of `Clean`
gives the path itself. -/
theorem cleanLoop_of_Clean_eq (tl : Str) (hclean : filepath.Clean ('/' :: tl) = '/' :: tl) :
    filepath.cleanLoop true ('/' :: tl).length tl ['/'] 1 = '/' :: tl := by
  unfold filepath.Clean at hclean
  simp only [List.isEmpty_cons, Bool.false_eq_true, if_false, List.head?_cons,
    Option.any_some, List.drop_succ_cons, List.drop_zero] at hclean
  have hs : filepath.IsPathSeparator '/' = true := by decide
  simp only [hs, if_true, filepath.Separator] at hclean
  split at hclean
  · cases hclean
  · exact hclean

/-- An absolute path that `Clean` leaves as it is does not end with a
separator, unless it is the root. -/
theorem clean_abs_no_trailing_sep (d : Str) (habs : filepath.IsAbs d = true)
    (hclean : filepath.Clean d = d) : d = ['/'] ∨ d.getLast? ≠ some '/' := by
  obtain ⟨tl, rfl⟩ := head_of_IsAbs d habs
  by_cases htl : tl = []
  · left
    rw [htl]
  · right
    intro hlast
    have hlast2 : tl.getLast? = some '/' := by
      cases tl with
      | nil => exact absurd rfl htl
      | cons x tl2 => simpa [List.getLast?_cons_cons] using hlast
    obtain ⟨y, hy⟩ : ∃ y, tl = y ++ ['/'] := by
      refine ⟨tl.dropLast, ?_⟩
      have := List.dropLast_append_getLast? '/' (by simpa using hlast2)
      exact this.symm
    have hX := cleanLoop_of_Clean_eq tl hclean
    rw [hy] at hX
    have hA := cleanLoop_append y.length (y ++ ['/']).length.succ 1 y ['/'] [] 1 (le_refl _)
      (by simp) (by simp)
    simp only [List.length_cons] at hX
    rw [hA] at hX
    have hstep : ∀ out : Str, filepath.cleanLoop true 1 ['/'] out 1 = out := by
      intro out
      simp [filepath.cleanLoop, filepath.IsPathSeparator, filepath.Separator]
    rw [hstep] at hX
    have hlen := (cleanLoop_length y.length y ['/'] 1).2 (Or.inl rfl)
    rw [hX] at hlen
    simp at hlen
    omega

/-- Go `filepath.Join(dir, name)` for an absolute `dir` that `Clean` leaves as
it is and a plain name: the name is added after a separator, or directly
after the root. -/
theorem Clean_dir_name (d n : Str) (habs : filepath.IsAbs d = true)
    (hclean : filepath.Clean d = d) (hne : n ≠ []) (hsep : ∀ c ∈ n, c ≠ '/')
    (hdot : n ≠ ['.']) (hdotdot : n ≠ ['.', '.']) :
    filepath.Clean (d ++ '/' :: n) = (if d.length != 1 then d ++ ['/'] else d) ++ n := by
  obtain ⟨tl, rfl⟩ := head_of_IsAbs d habs
  have hX := cleanLoop_of_Clean_eq tl hclean
  unfold filepath.Clean
  have hs : filepath.IsPathSeparator '/' = true := by decide
  simp only [List.cons_append, List.isEmpty_cons, Bool.false_eq_true, if_false,
    List.head?_cons, Option.any_some, hs, if_true, List.drop_succ_cons, List.drop_zero,
    filepath.Separator]
  have hA := cleanLoop_append ('/' :: tl).length ('/' :: (tl ++ '/' :: n)).length
    (n.length + 2) tl ['/'] n 1 (by simp) (by simp) (by simp)
  rw [hA, hX]
  have hstep : filepath.cleanLoop true (n.length + 2) ('/' :: n) ('/' :: tl) 1
      = filepath.cleanLoop true (n.length + 1) n ('/' :: tl) 1 := by
    rw [filepath.cleanLoop]
    simp only [hs, if_true]
  rw [hstep, cleanLoop_plain_name n.length n ('/' :: tl) 1 hne hsep hdot hdotdot]
  have hnon : ((if (('/' :: tl).length != 1) = true then ('/' :: tl) ++ ['/'] else '/' :: tl)
      ++ n).isEmpty = false := by
    cases n with
    | nil => exact absurd rfl hne
    | cons c n2 => simp
  simp only [hnon, Bool.false_eq_true, if_false]
  rfl

theorem Join_dir_name (d n : Str) (habs : filepath.IsAbs d = true)
    (hclean : filepath.Clean d = d) (hne : n ≠ []) (hsep : ∀ c ∈ n, c ≠ '/')
    (hdot : n ≠ ['.']) (hdotdot : n ≠ ['.', '.']) :
    filepath.Join d n = (if d.length != 1 then d ++ ['/'] else d) ++ n := by
  obtain ⟨tl, rfl⟩ := head_of_IsAbs d habs
  unfold filepath.Join
  simp only [List.isEmpty_cons, Bool.not_false, if_true, filepath.Separator]
  have := Clean_dir_name ('/' :: tl) n habs hclean hne hsep hdot hdotdot
  simpa using this

/-- The joined path is itself left as it is by `Clean`. -/
theorem Clean_joined (d n : Str) (habs : filepath.IsAbs d = true)
    (hclean : filepath.Clean d = d) (hne : n ≠ []) (hsep : ∀ c ∈ n, c ≠ '/')
    (hdot : n ≠ ['.']) (hdotdot : n ≠ ['.', '.']) :
    filepath.Clean ((if d.length != 1 then d ++ ['/'] else d) ++ n)
      = (if d.length != 1 then d ++ ['/'] else d) ++ n := by
  by_cases hone : d.length = 1
  · obtain ⟨tl, rfl⟩ := head_of_IsAbs d habs
    have htl : tl = [] := by
      simpa using hone
    subst htl
    simp only [List.length_singleton, bne_self_eq_false, Bool.false_eq_true, if_false,
      List.singleton_append]
    unfold filepath.Clean
    have hs : filepath.IsPathSeparator '/' = true := by decide
    simp only [List.isEmpty_cons, Bool.false_eq_true, if_false, List.head?_cons,
      Option.any_some, hs, if_true, List.drop_succ_cons, List.drop_zero, filepath.Separator,
      List.length_cons]
    rw [cleanLoop_plain_name n.length n ['/'] 1 hne hsep hdot hdotdot]
    simp
  · have hne1 : (d.length != 1) = true := by simpa using hone
    have := Clean_dir_name d n habs hclean hne hsep hdot hdotdot
    simp only [hne1, if_true] at this ⊢
    simpa using this

/-! ### The path of an entry relative to its directory -/

theorem takeWhile_ne_sep_append (a rest : Str) :
    (a ++ '/' :: rest).takeWhile (fun x => x != filepath.Separator)
      = a.takeWhile (fun x => x != filepath.Separator) := by
  induction a with
  | nil => simp [filepath.Separator]
  | cons c tl ih =>
    simp only [List.cons_append, List.takeWhile_cons, ih]

theorem dropWhile_ne_sep_append (a rest : Str) :
    (a ++ '/' :: rest).dropWhile (fun x => x != filepath.Separator)
      = a.dropWhile (fun x => x != filepath.Separator) ++ '/' :: rest := by
  induction a with
  | nil => simp [filepath.Separator]
  | cons c tl ih =>
    simp only [List.cons_append, List.dropWhile_cons, ih]
    split <;> rfl

theorem dropWhile_ne_sep_cons (b : Str) (x : Char) (b2 : Str)
    (h : b.dropWhile (fun x => x != filepath.Separator) = x :: b2) : x = '/' := by
  have := List.head_dropWhile_not (fun x => x != filepath.Separator) b (by rw [h]; simp)
  simp only [h, List.head_cons, Bool.not_eq_true, bne_eq_false_iff_eq] at this
  simpa [filepath.Separator] using this

/-- The loop of `Rel` on a base path and a target that is the base path, a
separator and more: the base is used up and the target is left with what
follows the separator. -/
theorem relLoop_prefix (fuel : Nat) :
    ∀ (b t : Str), b ≠ [] → b.getLast? ≠ some '/' → b.length < fuel →
      filepath.relLoop fuel b (b ++ '/' :: t) = ([], [], t) := by
  induction fuel with
  | zero =>
    intro b t _ _ hlen
    omega
  | succ fuel ih =>
    intro b t hne hlast hlen
    rw [filepath.relLoop]
    have h1 : (b.isEmpty || (b ++ '/' :: t).isEmpty) = false := by
      cases b with
      | nil => exact absurd rfl hne
      | cons c tl => simp
    simp only [h1, Bool.false_eq_true, if_false, takeWhile_ne_sep_append,
      dropWhile_ne_sep_append, bne_self_eq_false]
    cases hd : b.dropWhile (fun x => x != filepath.Separator) with
    | nil =>
      simp only [List.drop_nil, List.nil_append, List.drop_succ_cons, List.drop_zero]
      cases fuel <;> simp [filepath.relLoop]
    | cons x b2 =>
      have hx := dropWhile_ne_sep_cons b x b2 hd
      subst hx
      have hb : b = b.takeWhile (fun x => x != filepath.Separator) ++ '/' :: b2 := by
        rw [← hd, List.takeWhile_append_dropWhile]
      have hb2 : b2 ≠ [] := by
        intro h
        apply hlast
        rw [hb, h]
        simp
      have hlast2 : b2.getLast? ≠ some '/' := by
        intro h
        apply hlast
        rw [hb, List.getLast?_append_of_ne_nil _ (by simp)]
        cases b2 with
        | nil => exact absurd rfl hb2
        | cons y b3 =>
          rw [List.getLast?_cons_cons]
          exact h
      have hlen2 : b2.length < fuel := by
        have : b.length = (b.takeWhile (fun x => x != filepath.Separator)).length
            + (b2.length + 1) := by
          conv_lhs => rw [hb]
          simp
        omega
      simp only [List.cons_append, List.drop_succ_cons, List.drop_zero]
      exact ih b2 t hb2 hlast2 hlen2
/-- Go `filepath.Rel(dir, filepath.Join(dir, name))` is `name`, for an
absolute `dir` that `Clean` leaves as it is and a plain name. -/
theorem Rel_dir_name (d n : Str) (habs : filepath.IsAbs d = true)
    (hclean : filepath.Clean d = d) (hne : n ≠ []) (hsep : ∀ c ∈ n, c ≠ '/')
    (hdot : n ≠ ['.']) (hdotdot : n ≠ ['.', '.']) :
    filepath.Rel d (filepath.Join d n) = some n := by
  rw [Join_dir_name d n habs hclean hne hsep hdot hdotdot]
  have hcj := Clean_joined d n habs hclean hne hsep hdot hdotdot
  have htrail := clean_abs_no_trailing_sep d habs hclean
  obtain ⟨tl, rfl⟩ := head_of_IsAbs d habs
  have hnpos : 0 < n.length := List.length_pos.mpr hne
  have hloop : filepath.relLoop (('/' :: tl).length + 1) ('/' :: tl)
      ((if (('/' :: tl).length != 1) = true then ('/' :: tl) ++ ['/'] else '/' :: tl) ++ n)
      = ([], [], n) := by
    by_cases htl : tl = []
    · subst htl
      simp [filepath.relLoop, filepath.Separator]
    · have hne1 : (('/' :: tl).length != 1) = true := by
        simpa using htl
      simp only [hne1, if_true]
      have hlast : ('/' :: tl).getLast? ≠ some '/' := by
        rcases htrail with h | h
        · simp only [List.cons.injEq, true_and] at h
          exact absurd h htl
        · exact h
      have := relLoop_prefix (('/' :: tl).length + 1) ('/' :: tl) n (by simp) hlast
        (Nat.lt_succ_self _)
      simpa using this
  have hneq : (((if (('/' :: tl).length != 1) = true then ('/' :: tl) ++ ['/'] else '/' :: tl)
      ++ n) == '/' :: tl) = false := by
    rw [beq_eq_false_iff_ne]
    intro h
    have hl := congrArg List.length h
    rw [List.length_append] at hl
    split at hl
    · simp at hl
      omega
    · omega
  have hhead : ((if (('/' :: tl).length != 1) = true then ('/' :: tl) ++ ['/'] else '/' :: tl)
      ++ n).head? = some '/' := by
    split <;> simp
  have hbase : (('/' :: tl) == ['.']) = false := by
    rw [beq_eq_false_iff_ne]
    intro h
    simp at h
  unfold filepath.Rel
  simp only [hclean, hcj, hneq, Bool.false_eq_true, if_false, hbase, hhead, List.head?_cons,
    filepath.Separator, bne_self_eq_false, hloop]
  rfl
/-! ### The default name of the Enginefile -/

theorem IsAbs_Join_dir_name (d n : Str) (habs : filepath.IsAbs d = true)
    (hclean : filepath.Clean d = d) (hne : n ≠ []) (hsep : ∀ c ∈ n, c ≠ '/')
    (hdot : n ≠ ['.']) (hdotdot : n ≠ ['.', '.']) :
    filepath.IsAbs (filepath.Join d n) = true := by
  rw [Join_dir_name d n habs hclean hne hsep hdot hdotdot]
  obtain ⟨tl, rfl⟩ := head_of_IsAbs d habs
  split <;> simp [filepath.IsAbs, strings.HasPrefix, filepath.Separator]

/-- C15: in a context directory that resolves to the cleaned absolute path
`d`, with no explicit spec-file name: if an entry `Enginefile` exists in `d`
and is no symbolic link, the result is `relEnginefile = "Enginefile"`; if
`Enginefile` does not exist and an entry `enginefile` exists and is no symbolic
link, the result is `"enginefile"`.  And for an explicit name that does not
exist the resolution fails, whatever entries the directory has. -/
theorem C15_default_name_resolution (sys : OS) (givenContextDir a0 d : Str) (info : FileInfo)
    (habsdir : filepath.Abs sys givenContextDir = .ok a0)
    (heval : sys.evalSymlinks a0 = .ok d)
    (habs : filepath.IsAbs d = true) (hclean : filepath.Clean d = d)
    (hstat : sys.lstat d = .ok info) (hisdir : info.isDir = true) :
    (∀ fi, sys.lstat (filepath.Join d builder.DefaultEnginefileName) = .ok fi →
      sys.evalSymlinks (filepath.Join d builder.DefaultEnginefileName)
        = .ok (filepath.Join d builder.DefaultEnginefileName) →
      builder.getEnginefileRelPath sys givenContextDir []
        = .ok (d, "Enginefile".toList))
    ∧ (∀ e fi, sys.lstat (filepath.Join d builder.DefaultEnginefileName) = .error e →
      e.IsNotExist = true →
      sys.lstat (filepath.Join d "enginefile".toList) = .ok fi →
      sys.evalSymlinks (filepath.Join d "enginefile".toList)
        = .ok (filepath.Join d "enginefile".toList) →
      builder.getEnginefileRelPath sys givenContextDir []
        = .ok (d, "enginefile".toList))
    ∧ (∀ givenEnginefile, givenEnginefile ≠ [] →
      (∃ e, sys.evalSymlinks
          (if !filepath.IsAbs givenEnginefile then filepath.Join d givenEnginefile
           else givenEnginefile) = .error e)
      ∨ (∃ q e, sys.evalSymlinks
          (if !filepath.IsAbs givenEnginefile then filepath.Join d givenEnginefile
           else givenEnginefile) = .ok q ∧ sys.lstat q = .error e) →
      ∃ err, builder.getEnginefileRelPath sys givenContextDir givenEnginefile
        = .error err) := by
  have hD : builder.DefaultEnginefileName ≠ [] ∧ (∀ c ∈ builder.DefaultEnginefileName, c ≠ '/')
      ∧ builder.DefaultEnginefileName ≠ ['.'] ∧ builder.DefaultEnginefileName ≠ ['.', '.'] := by
    decide
  have hL : "enginefile".toList ≠ [] ∧ (∀ c ∈ "enginefile".toList, c ≠ '/')
      ∧ "enginefile".toList ≠ ['.'] ∧ "enginefile".toList ≠ ['.', '.'] := by
    decide
  have hlow : strings.ToLower builder.DefaultEnginefileName = "enginefile".toList := by decide
  refine ⟨?_, ?_, ?_⟩
  · intro fi hfile hplain
    have hrel := Rel_dir_name d builder.DefaultEnginefileName habs hclean
      hD.1 hD.2.1 hD.2.2.1 hD.2.2.2
    have hpre : strings.HasPrefix builder.DefaultEnginefileName
        ("..".toList ++ [filepath.Separator]) = false := by decide
    have hia := IsAbs_Join_dir_name d builder.DefaultEnginefileName habs hclean
      hD.1 hD.2.1 hD.2.2.1 hD.2.2.2
    unfold builder.getEnginefileRelPath
    simp only [habsdir, builder.isUNC, Bool.not_false, if_true, heval, hstat, hisdir,
      Bool.not_true, Bool.false_eq_true, if_false, List.isEmpty_nil, hfile, hia, hplain,
      hrel, hpre]
    rfl
  · intro e fi hmiss hnot hfile hplain
    have hrel := Rel_dir_name d "enginefile".toList habs hclean
      hL.1 hL.2.1 hL.2.2.1 hL.2.2.2
    have hpre : strings.HasPrefix "enginefile".toList
        ("..".toList ++ [filepath.Separator]) = false := by decide
    have hia := IsAbs_Join_dir_name d "enginefile".toList habs hclean
      hL.1 hL.2.1 hL.2.2.1 hL.2.2.2
    unfold builder.getEnginefileRelPath
    simp only [habsdir, builder.isUNC, Bool.not_false, if_true, heval, hstat, hisdir,
      Bool.not_true, Bool.false_eq_true, if_false, List.isEmpty_nil, hmiss, hnot, hlow,
      hfile, hia, hplain, hrel, hpre]
  · intro f hf hmissing
    have hfe : f.isEmpty = false := by
      cases f with
      | nil => exact absurd rfl hf
      | cons c tl => rfl
    unfold builder.getEnginefileRelPath
    simp only [habsdir, builder.isUNC, Bool.not_false, if_true, heval, hstat, hisdir,
      Bool.not_true, Bool.false_eq_true, if_false, hfe]
    rcases hmissing with ⟨e, he⟩ | ⟨q, e, hq, he⟩
    · simp only [he]
      exact ⟨_, rfl⟩
    · simp only [hq, he]
      split <;> exact ⟨_, rfl⟩
theorem C15_default_name_resolution_witness :
    builder.getEnginefileRelPath exampleOS "/a/b".toList []
        = .ok ("/a/b".toList, "Enginefile".toList)
    ∧ builder.getEnginefileRelPath exampleOSLower "/a/b".toList []
        = .ok ("/a/b".toList, "enginefile".toList)
    ∧ ∃ err, builder.getEnginefileRelPath exampleOSLower "/a/b".toList "/a/b/Custom".toList
        = .error err :=
  ⟨(C15_default_name_resolution exampleOS "/a/b".toList "/a/b".toList "/a/b".toList
      { isDir := true } (by decide) (by decide) (by decide) (by decide) (by decide) rfl).1
      { isDir := false } (by decide) (by decide),
   (C15_default_name_resolution exampleOSLower "/a/b".toList "/a/b".toList "/a/b".toList
      { isDir := true } (by decide) (by decide) (by decide) (by decide) (by decide) rfl).2.1
      (.os .notExist ("lstat: no such file or directory".toList)) { isDir := false }
      (by decide) (by decide) (by decide) (by decide),
   (C15_default_name_resolution exampleOSLower "/a/b".toList "/a/b".toList "/a/b".toList
      { isDir := true } (by decide) (by decide) (by decide) (by decide) (by decide) rfl).2.2
      "/a/b/Custom".toList (by decide)
      (Or.inl ⟨.os .notExist ("lstat: no such file or directory".toList), by decide⟩)⟩

/-! ### A spec file that does not exist -/

/-- When the evaluation of symbolic links fails on the path of an explicit,
absolute spec file, `getEnginefileRelPath` returns that failure; the test for
a file that does not exist comes after it. -/
theorem getEnginefileRelPath_evalSymlinks_error (sys : OS)
    (givenContextDir givenEnginefile a0 d : Str) (info : FileInfo) (e : GoError)
    (habsdir : filepath.Abs sys givenContextDir = .ok a0)
    (heval : sys.evalSymlinks a0 = .ok d)
    (hstat : sys.lstat d = .ok info) (hisdir : info.isDir = true)
    (hne : givenEnginefile ≠ []) (habs : filepath.IsAbs givenEnginefile = true)
    (hmissing : sys.evalSymlinks givenEnginefile = .error e) :
    builder.getEnginefileRelPath sys givenContextDir givenEnginefile
      = .error (.wrap "unable to evaluate symlinks in Enginefile path: %v" [] e) := by
  have hfe : givenEnginefile.isEmpty = false := by
    cases givenEnginefile with
    | nil => exact absurd rfl hne
    | cons c tl => rfl
  unfold builder.getEnginefileRelPath
  simp only [habsdir, builder.isUNC, Bool.not_false, if_true, heval, hstat, hisdir,
    Bool.not_true, Bool.false_eq_true, if_false, hfe, habs, hmissing]

/-- C16: in the existing context directory `/a/b` the explicit spec file
`/a/b/missing` does not exist, and in the existing context directory `/a`
neither `Enginefile` nor `enginefile` exists; in both cases
`getEnginefileRelPath` fails with the error of the evaluation of symbolic
links, not with the `Cannot locate Enginefile` error. -/
theorem C16_missing_file_error :
    builder.getEnginefileRelPath exampleOS "/a/b".toList "/a/b/missing".toList
        = .error (.wrap "unable to evaluate symlinks in Enginefile path: %v" []
            (.os .notExist "lstat: no such file or directory".toList))
    ∧ builder.getEnginefileRelPath exampleOS "/a".toList []
        = .error (.wrap "unable to evaluate symlinks in Enginefile path: %v" []
            (.os .notExist "lstat: no such file or directory".toList))
    ∧ builder.getEnginefileRelPath exampleOS "/a/b".toList "/a/b/missing".toList
        ≠ .error (.errorf "Cannot locate Enginefile: %q" ["/a/b/missing".toList]) := by
  decide

/-! ### The host of the client -/

/-- C17: with no host flag and `PROVIDENCE_HOST` not set, `NewEnvClient`
succeeds and targets `DefaultProvidenceHost`, but `getServerHost` gives the
empty host and `NewAPIClientFromFlags` fails to parse it: the default host is
not applied there.  One host given is used; two hosts given are refused. -/
theorem C17_no_default_host_from_flags :
    client.NewEnvClient exampleClientEnv
        = .ok { scheme := "http".toList, host := "http://localhost".toList,
                proto := "http".toList, addr := "localhost".toList, basePath := [],
                version := "1.0".toList, customHTTPHeaders := [] }
    ∧ command.getServerHost exampleClientEnv [] = .ok []
    ∧ command.NewAPIClientFromFlags exampleClientEnv []
        = .error (.errorf "unable to parse providence host `%s`" [[]])
    ∧ (command.NewAPIClientFromFlags exampleClientEnv ["tcp://10.0.0.1:2375".toList]).map
          (fun c => c.host) = .ok "tcp://10.0.0.1:2375".toList
    ∧ command.NewAPIClientFromFlags exampleClientEnv
          ["tcp://10.0.0.1:2375".toList, "http://localhost".toList]
        = .error (.errorf "Please specify only one -H" []) := by
  decide

/-- Whenever no host flag is given and `PROVIDENCE_HOST` is empty or not set,
`NewAPIClientFromFlags` fails: the empty host has no `://`. -/
theorem NewAPIClientFromFlags_empty_host (env : ClientEnv)
    (h : env.Getenv "PROVIDENCE_HOST" = []) :
    command.NewAPIClientFromFlags env []
      = .error (.errorf "unable to parse providence host `%s`" [[]]) := by
  have hsplit : strings.SplitN2 [] "://".toList = none := by decide
  simp only [command.NewAPIClientFromFlags, command.getServerHost, h, client.NewClient,
    client.ParseHost, hsplit]
